import Mathlib

/-!
LinkedInstance: intrusive per-type instance registry

A shallow embedding of `src/src/LinkedInstance.h`, `src/src/LinkedInstanceIterator.h`
and of `simple_example` in `src/examples_main.cpp`.

An instance of the registered type `T` is identified by a natural number (its
address).  A `T *` is an `Option Nat`, with `none` for `nullptr`.  The two static
members `s_head`, `s_tail` and the two fields `m_next`, `m_prev` of every instance
make up the registry state of one instantiation `LinkedInstance<T>`.

The storage of a destroyed instance stays addressable in the model: its fields keep
the `nullptr` values that `unlink` wrote, and a later write through a pointer that
still refers to it (`s_tail->m_next`, `m_prev->m_next`) lands in those fields.
-/

namespace LinkedInstance

/-! ## Registry state -/

/-- State of `LinkedInstance<T>`: the statics `s_head`, `s_tail` and, for every
instance address, the fields `m_next` and `m_prev`. -/
structure Registry where
  s_head : Option Nat
  s_tail : Option Nat
  m_next : Nat → Option Nat
  m_prev : Nat → Option Nat

/-- Store `v` in the field of instance `x`. -/
def store (f : Nat → Option Nat) (x : Nat) (v : Option Nat) : Nat → Option Nat :=
  fun y => if y = x then v else f y

/-- Statics as defined at lines 55-58: `s_head = nullptr`, `s_tail = nullptr`.  No
instance exists yet; every field reads `nullptr`. -/
def empty : Registry :=
  { s_head := none, s_tail := none, m_next := fun _ => none, m_prev := fun _ => none }

/-- Default member initialisers `m_next{ nullptr }`, `m_prev{ nullptr }` of a newly
constructed instance `x` (lines 41-42). -/
def member_init (x : Nat) (s : Registry) : Registry :=
  { s with m_next := store s.m_next x none, m_prev := store s.m_prev x none }

/-- `LinkedInstance::link` (lines 19-29), run on instance `x` (`this`). -/
def link (x : Nat) (s : Registry) : Registry :=
  -- m_prev = s_tail;
  let s1 : Registry := { s with m_prev := store s.m_prev x s.s_tail }
  -- if (s_tail) s_tail->m_next = static_cast<T *>(this);
  let s2 : Registry :=
    match s1.s_tail with
    | some t => { s1 with m_next := store s1.m_next t (some x) }
    | none => s1
  -- s_tail = static_cast<T *>(this);
  let s3 : Registry := { s2 with s_tail := some x }
  -- if (!s_head) s_head = static_cast<T *>(this);
  match s3.s_head with
  | none => { s3 with s_head := some x }
  | some _ => s3

/-- `LinkedInstance::unlink` (lines 30-39), run on instance `x` (`this`). -/
def unlink (x : Nat) (s : Registry) : Registry :=
  -- if (m_prev) m_prev->m_next = m_next; else s_head = m_next;
  let s1 : Registry :=
    match s.m_prev x with
    | some p => { s with m_next := store s.m_next p (s.m_next x) }
    | none => { s with s_head := s.m_next x }
  -- m_next = nullptr;
  let s2 : Registry := { s1 with m_next := store s1.m_next x none }
  -- m_prev = nullptr;
  { s2 with m_prev := store s2.m_prev x none }

/-- Default constructor `LinkedInstance() { link(); }` (line 14) of instance `x`. -/
def construct (x : Nat) (s : Registry) : Registry :=
  link x (member_init x s)

/-- Copy constructor `LinkedInstance(const LinkedInstance &) { link(); }` (line 15):
the new instance `x` copies nothing from `src`; its fields get their default
initialisers and it is linked. -/
def copy_construct (_src x : Nat) (s : Registry) : Registry :=
  link x (member_init x s)

/-- Destructor `~LinkedInstance() { unlink(); }` (line 16) of instance `x`. -/
def destruct (x : Nat) (s : Registry) : Registry :=
  unlink x s

/-- `linked_instance_head<T>()` (lines 60-66). -/
def linked_instance_head (s : Registry) : Option Nat := s.s_head

/-- `linked_instance_tail<T>()` (lines 67-73). -/
def linked_instance_tail (s : Registry) : Option Nat := s.s_tail

/-- `linked_instance_next(instance)` (lines 74-78). -/
def linked_instance_next (s : Registry) (x : Nat) : Option Nat := s.m_next x

/-- `linked_instance_prev(instance)` (lines 79-83). -/
def linked_instance_prev (s : Registry) (x : Nat) : Option Nat := s.m_prev x

/-! ## Sequences of creations and destructions -/

/-- One lifetime event of an instance of `T`. -/
inductive Op where
  | create (x : Nat)
  | destroy (x : Nat)
  deriving DecidableEq, Repr

/-- Effect of one event on the registry. -/
def apply (s : Registry) : Op → Registry
  | .create x => construct x s
  | .destroy x => destruct x s

/-- Effect of a sequence of events, left to right. -/
def exec (s : Registry) (ops : List Op) : Registry :=
  ops.foldl apply s

/-- The registry after the events `ops`, starting from the empty registry. -/
def run (ops : List Op) : Registry :=
  exec empty ops

/-- Instances live after the events `ops`, in construction order, given the ones
live before. -/
def liveAfter (live : List Nat) : List Op → List Nat
  | [] => live
  | .create x :: ops => liveAfter (live ++ [x]) ops
  | .destroy x :: ops => liveAfter (live.erase x) ops

/-- Well-formedness of a sequence of events: a creation is of an instance never
created before, a destruction is of an instance that is live.  `created` and
`live` are the instances created, and live, before the sequence. -/
def wellFormedFrom (created live : List Nat) : List Op → Bool
  | [] => true
  | .create x :: ops =>
      !created.contains x && wellFormedFrom (x :: created) (live ++ [x]) ops
  | .destroy x :: ops =>
      live.contains x && wellFormedFrom created (live.erase x) ops

/-- Well-formed sequence of events from the empty registry. -/
def wellFormed (ops : List Op) : Bool :=
  wellFormedFrom [] [] ops

/-- The events creating `xs` in order. -/
def creations (xs : List Nat) : List Op := xs.map Op.create

/-- The events destroying `xs` in order. -/
def destructions (xs : List Nat) : List Op := xs.map Op.destroy

/-! ## Traversal through the accessors -/

/-- Follow `step` from `start` until the empty reference, collecting the instances
visited.  `none` when `fuel` steps did not reach the empty reference. -/
def walk (step : Nat → Option Nat) : Nat → Option Nat → Option (List Nat)
  | _, none => some []
  | 0, some _ => none
  | fuel + 1, some x => (walk step fuel (step x)).map (fun r => x :: r)

/-- Forward traversal: `linked_instance_head`, then `linked_instance_next`
repeatedly. -/
def forward (s : Registry) (fuel : Nat) : Option (List Nat) :=
  walk (linked_instance_next s) fuel (linked_instance_head s)

/-- Reverse traversal: `linked_instance_tail`, then `linked_instance_prev`
repeatedly. -/
def backward (s : Registry) (fuel : Nat) : Option (List Nat) :=
  walk (linked_instance_prev s) fuel (linked_instance_tail s)

/-! ## Iterator and range (`LinkedInstanceIterator.h`) -/

/-- Ways an iterator operation or a loop over a range does not return. -/
inductive Fault where
  /-- `LINKED_INSTANCE_ASSERT(m_curr)` failed (`__debugbreak()`). -/
  | assertion
  /-- The loop did not reach its end iterator within the given number of steps. -/
  | fuel
  deriving DecidableEq, Repr

/-- `impl::LinkedInstanceIterator_impl<T>`: the member `m_curr`. -/
structure LinkedInstanceIterator where
  m_curr : Option Nat
  deriving DecidableEq, Repr

namespace LinkedInstanceIterator

/-- `current()` (line 68). -/
def current (it : LinkedInstanceIterator) : Option Nat := it.m_curr

/-- `checked_current()` (line 69): asserts `m_curr`, then returns it. -/
def checked_current (it : LinkedInstanceIterator) : Except Fault Nat :=
  match it.m_curr with
  | some x => .ok x
  | none => .error Fault.assertion

/-- `valid()` (line 70): `m_curr != nullptr`. -/
def valid (it : LinkedInstanceIterator) : Bool := it.m_curr != none

/-- `operator*` / `operator->` (lines 30-31). -/
def deref (it : LinkedInstanceIterator) : Except Fault Nat := it.checked_current

/-- `move_forward()` (line 73): `m_curr = linked_instance_next(**this)`. -/
def move_forward (s : Registry) (it : LinkedInstanceIterator) :
    Except Fault LinkedInstanceIterator :=
  match it.deref with
  | .ok x => .ok { m_curr := linked_instance_next s x }
  | .error e => .error e

/-- `move_backward()` (line 74): `m_curr = linked_instance_prev(**this)`. -/
def move_backward (s : Registry) (it : LinkedInstanceIterator) :
    Except Fault LinkedInstanceIterator :=
  match it.deref with
  | .ok x => .ok { m_curr := linked_instance_prev s x }
  | .error e => .error e

/-- Pre-increment `operator++()` (lines 33-37). -/
def operator_inc (s : Registry) (it : LinkedInstanceIterator) :
    Except Fault LinkedInstanceIterator :=
  it.move_forward s

/-- Pre-decrement `operator--()` (lines 46-50). -/
def operator_dec (s : Registry) (it : LinkedInstanceIterator) :
    Except Fault LinkedInstanceIterator :=
  it.move_backward s

/-- `operator==` (lines 59-62). -/
def operator_eq (a b : LinkedInstanceIterator) : Bool := a.m_curr == b.m_curr

/-- `operator!=` (lines 63-66). -/
def operator_ne (a b : LinkedInstanceIterator) : Bool := !(a.operator_eq b)

end LinkedInstanceIterator

/-- `LinkedInstanceRange<T>`: the members `m_first`, `m_last`. -/
structure LinkedInstanceRange where
  m_first : LinkedInstanceIterator
  m_last : LinkedInstanceIterator
  deriving DecidableEq, Repr

/-- `LinkedInstanceRange::begin()` (line 127). -/
def LinkedInstanceRange.begin (r : LinkedInstanceRange) : LinkedInstanceIterator :=
  r.m_first

/-- `LinkedInstanceRange::end()` (line 128). -/
def LinkedInstanceRange.end_ (r : LinkedInstanceRange) : LinkedInstanceIterator :=
  r.m_last

/-- `linked_instance_range<T>()` (lines 146-156): first at the head, last at
`nullptr`. -/
def linked_instance_range (s : Registry) : LinkedInstanceRange :=
  { m_first := { m_curr := linked_instance_head s }, m_last := { m_curr := none } }

/-- The loop `for (it = first; it != last; ++it) visit(*it)` over a registry that
the body leaves unchanged; the result lists the instances visited. -/
def iterate (s : Registry) (last : LinkedInstanceIterator) :
    Nat → LinkedInstanceIterator → Except Fault (List Nat)
  | 0, it => if it.operator_ne last then .error Fault.fuel else .ok []
  | fuel + 1, it =>
      if it.operator_ne last then
        match it.deref with
        | .error e => .error e
        | .ok x =>
            match it.operator_inc s with
            | .error e => .error e
            | .ok it1 =>
                match iterate s last fuel it1 with
                | .error e => .error e
                | .ok r => .ok (x :: r)
      else .ok []

/-- The range-based loop `for (auto & n : linked_instance_range<T>())`. -/
def rangeFor (s : Registry) (fuel : Nat) : Except Fault (List Nat) :=
  iterate s (linked_instance_range s).end_ fuel (linked_instance_range s).begin

/-! ## Further iterator operations -/

namespace LinkedInstanceIterator

/-- `operator bool` (line 28): `valid()`. -/
def operator_bool (it : LinkedInstanceIterator) : Bool := it.valid

/-- Post-increment `operator++(int)` (lines 39-44): `ret` is the copy made before
`move_forward()`.  The result pairs `ret` with the iterator after the call. -/
def operator_inc_post (s : Registry) (it : LinkedInstanceIterator) :
    Except Fault (LinkedInstanceIterator × LinkedInstanceIterator) :=
  match it.move_forward s with
  | .ok it1 => .ok (it, it1)
  | .error e => .error e

/-- Pre-increment `operator++()` applied `n` times. -/
def advance (s : Registry) : Nat → LinkedInstanceIterator → Except Fault LinkedInstanceIterator
  | 0, it => .ok it
  | n + 1, it =>
      match it.operator_inc s with
      | .ok it1 => advance s n it1
      | .error e => .error e

end LinkedInstanceIterator

/-- `ConstLinkedInstanceIterator<T>` (lines 85-111): the member `m_curr` of its base
`LinkedInstanceIterator_impl<const T>`. -/
structure ConstLinkedInstanceIterator where
  m_curr : Option Nat
  deriving DecidableEq, Repr

namespace ConstLinkedInstanceIterator

/-- Converting constructor from a mutable iterator (lines 93-95):
`Base{ other.current() }`. -/
def ofIterator (other : LinkedInstanceIterator) : ConstLinkedInstanceIterator :=
  { m_curr := other.current }

/-- `operator=` from a mutable iterator (lines 97-101): `*this` becomes a read-only
iterator built from `other.current()`. -/
def assign (_self : ConstLinkedInstanceIterator) (other : LinkedInstanceIterator) :
    ConstLinkedInstanceIterator :=
  { m_curr := other.current }

/-- Inherited `current()` (line 68). -/
def current (it : ConstLinkedInstanceIterator) : Option Nat := it.m_curr

/-- Inherited `valid()` (line 70). -/
def valid (it : ConstLinkedInstanceIterator) : Bool := it.m_curr != none

/-- Inherited `operator bool` (line 28). -/
def operator_bool (it : ConstLinkedInstanceIterator) : Bool := it.valid

/-- Inherited `checked_current()` (line 69). -/
def checked_current (it : ConstLinkedInstanceIterator) : Except Fault Nat :=
  match it.m_curr with
  | some x => .ok x
  | none => .error Fault.assertion

/-- Inherited `operator*` / `operator->` (lines 30-31). -/
def deref (it : ConstLinkedInstanceIterator) : Except Fault Nat := it.checked_current

/-- Inherited pre-increment `operator++()` (lines 33-37, 73). -/
def operator_inc (s : Registry) (it : ConstLinkedInstanceIterator) :
    Except Fault ConstLinkedInstanceIterator :=
  match it.deref with
  | .ok x => .ok { m_curr := linked_instance_next s x }
  | .error e => .error e

/-- `operator==` with a mutable iterator on the right (lines 103-106):
`current() == rhs.current()`. -/
def operator_eq (a : ConstLinkedInstanceIterator) (rhs : LinkedInstanceIterator) : Bool :=
  a.current == rhs.current

/-- `operator!=` with a mutable iterator on the right (lines 107-110). -/
def operator_ne (a : ConstLinkedInstanceIterator) (rhs : LinkedInstanceIterator) : Bool :=
  !(a.operator_eq rhs)

/-- The expression `a == b` for two read-only iterators.  The `operator==` declared
in `ConstLinkedInstanceIterator` (line 103) hides the one of the base class
(line 59), and its parameter is a mutable iterator, to which a read-only iterator
does not convert.  Both operands convert through the non-explicit `operator bool`
(line 28), so the built-in comparison of the two converted values is what runs. -/
def eq_const (a b : ConstLinkedInstanceIterator) : Bool :=
  a.operator_bool == b.operator_bool

/-- The expression `a != b` for two read-only iterators, as in
`it != range.cend()` (`examples_main.cpp` line 33); resolved as `eq_const` is. -/
def ne_const (a b : ConstLinkedInstanceIterator) : Bool :=
  a.operator_bool != b.operator_bool

end ConstLinkedInstanceIterator

/-- `LinkedInstanceRange::cbegin()` (line 130): `m_first` converted. -/
def LinkedInstanceRange.cbegin (r : LinkedInstanceRange) : ConstLinkedInstanceIterator :=
  ConstLinkedInstanceIterator.ofIterator r.m_first

/-- `LinkedInstanceRange::cend()` (line 131): `m_last` converted. -/
def LinkedInstanceRange.cend (r : LinkedInstanceRange) : ConstLinkedInstanceIterator :=
  ConstLinkedInstanceIterator.ofIterator r.m_last

/-! ## Instances carrying a payload (`simple_example`, `examples_main.cpp`) -/

/-- Objects of `simple_example::Number`: the registry of `LinkedInstance<Number>` and
the member `i` of every object. -/
structure Numbers where
  reg : Registry
  i : Nat → Int

/-- `Number(int ii) : i{ ii } {}` (line 17) for the object at `x`: the base class
constructor runs, then `i` is initialised. -/
def Number_construct (x : Nat) (ii : Int) (w : Numbers) : Numbers :=
  { reg := construct x w.reg, i := fun y => if y = x then ii else w.i y }

/-- Declarations `Number a{ v1 }, b{ v2 }, ...` (line 23): each pair is the address
of an object and the value it is constructed with. -/
def declare (w : Numbers) (decls : List (Nat × Int)) : Numbers :=
  decls.foldl (fun w d => Number_construct d.1 d.2 w) w

/-- The loop of lines 25-29, `for (Number & n : linked_instance_range<Number>())`,
whose body prints `n.i` and then replaces it (`n.i *= 2` in the example, `f` here).
The result is the values printed and the objects after the loop. -/
def printAndUpdate (f : Int → Int) (last : LinkedInstanceIterator) :
    Nat → LinkedInstanceIterator → Numbers → Except Fault (List Int × Numbers)
  | 0, it, w => if it.operator_ne last then .error Fault.fuel else .ok ([], w)
  | fuel + 1, it, w =>
      if it.operator_ne last then
        match it.deref with
        | .error e => .error e
        | .ok x =>
            let w1 : Numbers := { w with i := fun y => if y = x then f (w.i x) else w.i y }
            match it.operator_inc w1.reg with
            | .error e => .error e
            | .ok it1 =>
                match printAndUpdate f last fuel it1 w1 with
                | .error e => .error e
                | .ok (out, w2) => .ok (w.i x :: out, w2)
      else .ok ([], w)

/-- The loop of lines 32-36 over read-only iterators,
`for (it = range.cbegin(); it != range.cend(); ++it)`, whose body prints `it->i`.
The result is the values printed. -/
def printConst (w : Numbers) (last : ConstLinkedInstanceIterator) :
    Nat → ConstLinkedInstanceIterator → Except Fault (List Int)
  | 0, it => if it.ne_const last then .error Fault.fuel else .ok []
  | fuel + 1, it =>
      if it.ne_const last then
        match it.deref with
        | .error e => .error e
        | .ok x =>
            match it.operator_inc w.reg with
            | .error e => .error e
            | .ok it1 =>
                match printConst w last fuel it1 with
                | .error e => .error e
                | .ok out => .ok (w.i x :: out)
      else .ok []

/-- `simple_example::run` (lines 21-37) with the declared objects `decls` and the
update `f`: the values printed by the first and by the second loop. -/
def simple_example_run (f : Int → Int) (decls : List (Nat × Int)) (fuel : Nat)
    (w0 : Numbers) : Except Fault (List Int × List Int) :=
  let w := declare w0 decls
  match printAndUpdate f (linked_instance_range w.reg).end_ fuel
      (linked_instance_range w.reg).begin w with
  | .error e => .error e
  | .ok (out1, w1) =>
      match printConst w1 (linked_instance_range w1.reg).cend fuel
          (linked_instance_range w1.reg).cbegin with
      | .error e => .error e
      | .ok out2 => .ok (out1, out2)

/-! ## Creation order -/

/-- Instances created so far, most recent first, after the events `ops`, given the
ones created before. -/
def createdAfter (created : List Nat) : List Op → List Nat
  | [] => created
  | .create x :: ops => createdAfter (x :: created) ops
  | .destroy _ :: ops => createdAfter created ops

/-- Instances created by the events `ops` from the empty registry, in creation
order. -/
def createdOrder (ops : List Op) : List Nat :=
  (createdAfter [] ops).reverse

/-- Instance `y` was created strictly before instance `z` in the creation order `o`. -/
def Before (o : List Nat) (y z : Nat) : Prop :=
  y ∈ o ∧ z ∈ o ∧ o.indexOf y < o.indexOf z

/-- Every reference of the registry respects the creation order `o`: `s_tail` is the
last instance created, `s_head` is a created instance, every non-empty `m_prev`
refers to an instance created strictly before its holder and every non-empty
`m_next` to an instance created strictly after its holder. -/
def Ordered (o : List Nat) (s : Registry) : Prop :=
  o.Nodup ∧ s.s_tail = o.getLast? ∧ (∀ h, s.s_head = some h → h ∈ o) ∧
    (∀ y p, s.m_prev y = some p → Before o p y) ∧
    (∀ y z, s.m_next y = some z → Before o y z)

/-! ## Chain predicates used in the proofs -/

/-- Following `f` from `a` visits exactly the instances `xs` and arrives at `b`. -/
def Seg (f : Nat → Option Nat) : Option Nat → List Nat → Option Nat → Prop
  | a, [], b => a = b
  | a, x :: r, b => a = some x ∧ Seg f (f x) r b

/-- The registry holds `xs` as a valid doubly linked chain: the instances are
distinct, `m_next` leads from `s_head` through `xs` to `nullptr`, and `m_prev` leads
from `s_tail` through `xs` reversed to `nullptr`. -/
def Chain (s : Registry) (xs : List Nat) : Prop :=
  xs.Nodup ∧ Seg s.m_next s.s_head xs none ∧ Seg s.m_prev s.s_tail xs.reverse none

/-- As `Chain`, except that `s_tail` is not constrained: `m_prev` leads from the last
instance of `xs` through `xs` reversed to `nullptr`. -/
def Stack (s : Registry) (xs : List Nat) : Prop :=
  xs.Nodup ∧ Seg s.m_next s.s_head xs none ∧ Seg s.m_prev xs.getLast? xs.reverse none

/-! ## Lemmas on `store`, `Seg` and `walk` -/

theorem store_same (f : Nat → Option Nat) (x : Nat) (v : Option Nat) :
    store f x v x = v := by
  simp [store]

theorem store_other (f : Nat → Option Nat) (x y : Nat) (v : Option Nat) (h : y ≠ x) :
    store f x v y = f y := by
  simp [store, h]

theorem seg_congr {f g : Nat → Option Nat} :
    ∀ (xs : List Nat) (a b : Option Nat), (∀ y ∈ xs, g y = f y) →
      Seg f a xs b → Seg g a xs b
  | [], _, _, _, h => h
  | x :: r, _, b, hfg, h => by
      refine ⟨h.1, ?_⟩
      rw [hfg x (List.mem_cons_self x r)]
      exact seg_congr r (f x) b (fun y hy => hfg y (List.mem_cons_of_mem x hy)) h.2

theorem seg_append {f : Nat → Option Nat} :
    ∀ (xs ys : List Nat) (a c : Option Nat),
      Seg f a (xs ++ ys) c ↔ ∃ b, Seg f a xs b ∧ Seg f b ys c
  | [], ys, a, c => by
      constructor
      · intro h
        exact ⟨a, rfl, h⟩
      · rintro ⟨b, hab, h⟩
        have hab' : a = b := hab
        subst hab'
        exact h
  | x :: r, ys, a, c => by
      constructor
      · rintro ⟨ha, h⟩
        obtain ⟨b, h1, h2⟩ := (seg_append r ys (f x) c).1 h
        exact ⟨b, ⟨ha, h1⟩, h2⟩
      · rintro ⟨b, ⟨ha, h1⟩, h2⟩
        exact ⟨ha, (seg_append r ys (f x) c).2 ⟨b, h1, h2⟩⟩

theorem seg_start {f : Nat → Option Nat} {a b : Option Nat} {xs : List Nat}
    (h : Seg f a xs b) (hne : xs ≠ []) : a = xs.head? := by
  cases xs with
  | nil => exact absurd rfl hne
  | cons x r => exact h.1

theorem seg_start_none {f : Nat → Option Nat} {a : Option Nat} {xs : List Nat}
    (h : Seg f a xs none) : a = xs.head? := by
  cases xs with
  | nil => exact h
  | cons x r => exact h.1

theorem seg_snoc {f : Nat → Option Nat} (xs : List Nat) (t : Nat) (a c : Option Nat) :
    Seg f a (xs ++ [t]) c ↔ Seg f a xs (some t) ∧ f t = c := by
  rw [seg_append]
  constructor
  · rintro ⟨b, h1, hb, h2⟩
    subst hb
    exact ⟨h1, h2⟩
  · rintro ⟨h1, h2⟩
    exact ⟨some t, h1, rfl, h2⟩

theorem walk_of_seg {f : Nat → Option Nat} :
    ∀ (xs : List Nat) (a : Option Nat) (fuel : Nat), Seg f a xs none →
      xs.length ≤ fuel → walk f fuel a = some xs
  | [], a, fuel, h, _ => by
      have ha : a = none := h
      subst ha
      cases fuel <;> rfl
  | x :: r, a, 0, _, hlen => by simp at hlen
  | x :: r, a, fuel + 1, h, hlen => by
      obtain ⟨ha, hr⟩ := h
      subst ha
      have hlen' : r.length ≤ fuel := by simpa using hlen
      simp [walk, walk_of_seg r (f x) fuel hr hlen']

/-! ## Fields after `construct` and `destruct` -/

theorem construct_s_tail (x : Nat) (s : Registry) : (construct x s).s_tail = some x := by
  unfold construct link member_init
  cases hh : s.s_head <;> cases ht : s.s_tail <;> simp [hh, ht]

theorem construct_s_head (x : Nat) (s : Registry) :
    (construct x s).s_head = (match s.s_head with | none => some x | some h => some h) := by
  unfold construct link member_init
  cases hh : s.s_head <;> cases ht : s.s_tail <;> simp [hh, ht]

theorem construct_m_prev (x : Nat) (s : Registry) :
    (construct x s).m_prev = store (store s.m_prev x none) x s.s_tail := by
  unfold construct link member_init
  cases hh : s.s_head <;> cases ht : s.s_tail <;> simp [hh, ht]

theorem construct_m_next (x : Nat) (s : Registry) :
    (construct x s).m_next =
      (match s.s_tail with
        | some t => store (store s.m_next x none) t (some x)
        | none => store s.m_next x none) := by
  unfold construct link member_init
  cases hh : s.s_head <;> cases ht : s.s_tail <;> simp [hh, ht]

theorem destruct_s_tail (x : Nat) (s : Registry) : (destruct x s).s_tail = s.s_tail := by
  unfold destruct unlink
  cases hp : s.m_prev x <;> simp [hp]

theorem destruct_s_head (x : Nat) (s : Registry) :
    (destruct x s).s_head = (match s.m_prev x with | some _ => s.s_head | none => s.m_next x) := by
  unfold destruct unlink
  cases hp : s.m_prev x <;> simp [hp]

theorem destruct_m_prev (x : Nat) (s : Registry) :
    (destruct x s).m_prev = store s.m_prev x none := by
  unfold destruct unlink
  cases hp : s.m_prev x <;> simp [hp]

theorem destruct_m_next (x : Nat) (s : Registry) :
    (destruct x s).m_next =
      (match s.m_prev x with
        | some p => store (store s.m_next p (s.m_next x)) x none
        | none => store s.m_next x none) := by
  unfold destruct unlink
  cases hp : s.m_prev x <;> simp [hp]

/-! ## Event sequences -/

theorem exec_append (s : Registry) (ops1 ops2 : List Op) :
    exec s (ops1 ++ ops2) = exec (exec s ops1) ops2 := by
  simp [exec, List.foldl_append]

theorem exec_cons (s : Registry) (op : Op) (ops : List Op) :
    exec s (op :: ops) = exec (apply s op) ops := rfl

theorem exec_nil (s : Registry) : exec s [] = s := rfl

theorem creations_append (xs ys : List Nat) :
    creations (xs ++ ys) = creations xs ++ creations ys := by
  simp [creations]

theorem destructions_reverse_snoc (xs : List Nat) (x : Nat) :
    destructions (xs ++ [x]).reverse = Op.destroy x :: destructions xs.reverse := by
  simp [destructions]

theorem wellFormedFrom_creations :
    ∀ (xs created live : List Nat),
      wellFormedFrom created live (creations xs) = true ↔
        xs.Nodup ∧ ∀ x ∈ xs, x ∉ created
  | [], _, _ => by simp [creations, wellFormedFrom]
  | x :: r, created, live => by
      have ih := wellFormedFrom_creations r (x :: created) (live ++ [x])
      simp only [creations, List.map_cons, wellFormedFrom, Bool.and_eq_true,
        Bool.not_eq_true', List.nodup_cons, List.mem_cons, forall_eq_or_imp] at ih ⊢
      rw [ih]
      have hc : created.contains x = false ↔ x ∉ created := by simp
      rw [hc]
      constructor
      · rintro ⟨h1, h2, h3⟩
        exact ⟨⟨fun hx => h3 x hx (Or.inl rfl), h2⟩, h1, fun y hy hc => h3 y hy (Or.inr hc)⟩
      · rintro ⟨⟨h1, h2⟩, h3, h4⟩
        refine ⟨h3, h2, fun y hy hc => ?_⟩
        rcases hc with hyx | hc
        · exact h1 (hyx ▸ hy)
        · exact h4 y hy hc

theorem wellFormed_creations (xs : List Nat) :
    wellFormed (creations xs) = true ↔ xs.Nodup := by
  simp [wellFormed, wellFormedFrom_creations]

/-! ## Chains built by creations -/

theorem chain_empty : Chain empty [] := by
  refine ⟨List.nodup_nil, ?_, ?_⟩ <;> rfl

theorem chain_s_tail {s : Registry} {xs : List Nat} (h : Chain s xs) :
    s.s_tail = xs.getLast? := by
  have := seg_start_none h.2.2
  simpa using this

theorem chain_s_head {s : Registry} {xs : List Nat} (h : Chain s xs) :
    s.s_head = xs.head? :=
  seg_start_none h.2.1

theorem chain_construct {s : Registry} {xs : List Nat} {x : Nat}
    (h : Chain s xs) (hx : x ∉ xs) : Chain (construct x s) (xs ++ [x]) := by
  obtain ⟨hnd, hnext, hprev⟩ := h
  have hnd' : (xs ++ [x]).Nodup := by
    rw [List.nodup_append]
    refine ⟨hnd, List.nodup_singleton x, ?_⟩
    intro a ha hb
    rw [List.mem_singleton] at hb
    exact hx (hb ▸ ha)
  refine ⟨hnd', ?_, ?_⟩
  · -- the `m_next` side
    rw [construct_m_next, construct_s_head]
    cases xs using List.reverseRecOn with
    | nil =>
        have hh : s.s_head = none := hnext
        have ht : s.s_tail = none := hprev
        rw [hh, ht]
        exact ⟨rfl, store_same _ _ _⟩
    | append_singleton r t =>
        have ht : s.s_tail = some t := by
          have := seg_start_none hprev
          simpa using this
        have hh : s.s_head = (r ++ [t]).head? := seg_start_none hnext
        have hxt : x ≠ t := fun e => hx (by simp [e])
        have htr : t ∉ r := by
          intro htr
          rw [List.nodup_append] at hnd
          exact hnd.2.2 htr (List.mem_singleton_self t)
        have hxr : x ∉ r := fun hxr => hx (List.mem_append_left _ hxr)
        obtain ⟨h1, _⟩ := (seg_snoc r t _ _).1 hnext
        rw [ht]
        have hhead : (match s.s_head with | none => some x | some h => some h) = s.s_head := by
          rw [hh]
          cases r <;> rfl
        rw [hhead]
        dsimp only
        refine (seg_snoc (r ++ [t]) x _ _).2 ⟨(seg_snoc r t _ _).2 ⟨?_, ?_⟩, ?_⟩
        · refine seg_congr r _ _ (fun y hy => ?_) h1
          have hyt : y ≠ t := fun e => htr (e ▸ hy)
          have hyx : y ≠ x := fun e => hxr (e ▸ hy)
          rw [store_other _ _ _ _ hyt, store_other _ _ _ _ hyx]
        · exact store_same _ _ _
        · rw [store_other _ _ _ _ hxt, store_same]
  · -- the `m_prev` side
    rw [construct_m_prev, construct_s_tail, List.reverse_append]
    refine ⟨rfl, ?_⟩
    rw [store_same]
    refine seg_congr _ _ _ (fun y hy => ?_) hprev
    have hyx : y ≠ x := fun e => hx (by simpa [e] using hy)
    rw [store_other _ _ _ _ hyx, store_other _ _ _ _ hyx]

theorem run_creations_snoc (xs : List Nat) (x : Nat) :
    run (creations (xs ++ [x])) = construct x (run (creations xs)) := by
  simp [run, creations, exec, List.foldl_append, apply]

theorem chain_creations (xs : List Nat) (hnd : xs.Nodup) : Chain (run (creations xs)) xs := by
  induction xs using List.reverseRecOn with
  | nil => exact chain_empty
  | append_singleton r x ih =>
      rw [run_creations_snoc]
      rw [List.nodup_append] at hnd
      exact chain_construct (ih hnd.1)
        (fun hx => hnd.2.2 hx (List.mem_singleton_self x))

theorem chain_forward {s : Registry} {xs : List Nat} (h : Chain s xs) (fuel : Nat)
    (hf : xs.length ≤ fuel) : forward s fuel = some xs :=
  walk_of_seg xs _ fuel h.2.1 hf

theorem chain_backward {s : Registry} {xs : List Nat} (h : Chain s xs) (fuel : Nat)
    (hf : xs.length ≤ fuel) : backward s fuel = some xs.reverse :=
  walk_of_seg xs.reverse _ fuel h.2.2 (by simpa using hf)

/-! ## Removing one instance from a chain -/

theorem destruct_next_seg {s : Registry} {pre post : List Nat} {x : Nat}
    (hnd : (pre ++ x :: post).Nodup)
    (hnext : Seg s.m_next s.s_head (pre ++ x :: post) none)
    (hp : s.m_prev x = pre.getLast?) :
    Seg (destruct x s).m_next (destruct x s).s_head (pre ++ post) none ∧
      ∀ p, pre.getLast? = some p → (destruct x s).m_next p = post.head? := by
  obtain ⟨b, hpre, hb, hpost⟩ := (seg_append pre (x :: post) _ _).1 hnext
  subst hb
  have hxpost : x ∉ post := by
    intro hmem
    have := (List.nodup_append.1 hnd).2.1
    exact (List.nodup_cons.1 this).1 hmem
  have hxpre : x ∉ pre := by
    intro hmem
    exact (List.nodup_append.1 hnd).2.2 hmem (List.mem_cons_self x post)
  have hnx : s.m_next x = post.head? := seg_start_none hpost
  rw [destruct_m_next, destruct_s_head]
  cases pre using List.reverseRecOn with
  | nil =>
      have hp' : s.m_prev x = none := hp
      rw [hp']
      dsimp only
      refine ⟨?_, ?_⟩
      · refine seg_congr post _ _ (fun y hy => ?_) hpost
        exact store_other _ _ _ _ (fun e => hxpost (e ▸ hy))
      · intro p hpp
        simp at hpp
  | append_singleton r p =>
      have hp' : s.m_prev x = some p := by simpa using hp
      rw [hp']
      dsimp only
      have hpx : p ≠ x := fun e => hxpre (by simp [e])
      have hpr : p ∉ r := by
        intro hmem
        have h1 := (List.nodup_append.1 hnd).1
        exact (List.nodup_append.1 h1).2.2 hmem (List.mem_singleton_self p)
      have hxr : x ∉ r := fun hmem => hxpre (List.mem_append_left _ hmem)
      have hppost : p ∉ post := by
        intro hmem
        exact (List.nodup_append.1 hnd).2.2 (by simp) (List.mem_cons_of_mem x hmem)
      obtain ⟨hr, _⟩ := (seg_snoc r p _ _).1 hpre
      have hpn : store (store s.m_next p (s.m_next x)) x none p = s.m_next x := by
        rw [store_other _ _ _ _ hpx, store_same]
      refine ⟨(seg_append (r ++ [p]) post _ _).2
        ⟨s.m_next x, (seg_snoc r p _ _).2 ⟨?_, hpn⟩, ?_⟩, ?_⟩
      · refine seg_congr r _ _ (fun y hy => ?_) hr
        have hyx : y ≠ x := fun e => hxr (e ▸ hy)
        have hyp : y ≠ p := fun e => hpr (e ▸ hy)
        rw [store_other _ _ _ _ hyx, store_other _ _ _ _ hyp]
      · refine seg_congr post _ _ (fun y hy => ?_) hpost
        have hyx : y ≠ x := fun e => hxpost (e ▸ hy)
        have hyp : y ≠ p := fun e => hppost (e ▸ hy)
        rw [store_other _ _ _ _ hyx, store_other _ _ _ _ hyp]
      · intro q hq
        have hqp : q = p := by simpa using hq.symm
        rw [hqp, hpn, hnx]

theorem chain_m_prev {s : Registry} {pre post : List Nat} {x : Nat}
    (h : Chain s (pre ++ x :: post)) : s.m_prev x = pre.getLast? := by
  have hprev := h.2.2
  rw [List.reverse_append, List.reverse_cons, List.append_assoc] at hprev
  obtain ⟨b, _, hb, hrest⟩ := (seg_append post.reverse ([x] ++ pre.reverse) _ _).1 hprev
  have := seg_start_none hrest
  simpa using this

theorem chain_stack {s : Registry} {xs : List Nat} (h : Chain s xs) : Stack s xs := by
  refine ⟨h.1, h.2.1, ?_⟩
  rw [← chain_s_tail h]
  exact h.2.2

theorem stack_destruct {s : Registry} {xs : List Nat} {t : Nat}
    (h : Stack s (xs ++ [t])) : Stack (destruct t s) xs := by
  obtain ⟨hnd, hnext, hprev⟩ := h
  have hprev' : Seg s.m_prev (s.m_prev t) xs.reverse none := by
    rw [List.reverse_append] at hprev
    exact hprev.2
  have hpt : s.m_prev t = xs.getLast? := by
    have := seg_start_none hprev'
    simpa using this
  have hxt : t ∉ xs := fun hmem =>
    (List.nodup_append.1 hnd).2.2 hmem (List.mem_singleton_self t)
  refine ⟨(List.nodup_append.1 hnd).1, ?_, ?_⟩
  · have := (destruct_next_seg hnd hnext hpt).1
    simpa using this
  · rw [destruct_m_prev, ← hpt]
    refine seg_congr _ _ _ (fun y hy => ?_) hprev'
    exact store_other _ _ _ _ (fun e => hxt (by simpa [e] using hy))

theorem stack_destructions {s : Registry} (xs : List Nat) :
    ∀ ys : List Nat, Stack s (xs ++ ys) → Stack (exec s (destructions ys.reverse)) xs := by
  intro ys
  induction ys using List.reverseRecOn generalizing s with
  | nil =>
      intro h
      simpa [destructions, exec] using h
  | append_singleton r y ih =>
      intro h
      rw [destructions_reverse_snoc, exec_cons]
      rw [← List.append_assoc] at h
      exact ih (stack_destruct h)

theorem stack_forward {s : Registry} {xs : List Nat} (h : Stack s xs) (fuel : Nat)
    (hf : xs.length ≤ fuel) : forward s fuel = some xs :=
  walk_of_seg xs _ fuel h.2.1 hf

/-! ## The range loop and the accessor traversal -/

theorem iterate_eq_walk (s : Registry) :
    ∀ (fuel : Nat) (a : Option Nat),
      iterate s { m_curr := none } fuel { m_curr := a } =
        (match walk (linked_instance_next s) fuel a with
          | some r => .ok r
          | none => .error Fault.fuel)
  | 0, none => rfl
  | 0, some _ => rfl
  | _ + 1, none => rfl
  | fuel + 1, some x => by
      have ih := iterate_eq_walk s fuel (linked_instance_next s x)
      simp only [iterate, LinkedInstanceIterator.operator_ne,
        LinkedInstanceIterator.operator_eq, LinkedInstanceIterator.deref,
        LinkedInstanceIterator.checked_current, LinkedInstanceIterator.operator_inc,
        LinkedInstanceIterator.move_forward, walk]
      rw [ih]
      cases walk (linked_instance_next s) fuel (linked_instance_next s x) <;> simp

theorem rangeFor_eq_forward (s : Registry) (fuel : Nat) :
    rangeFor s fuel =
      (match forward s fuel with
        | some r => .ok r
        | none => .error Fault.fuel) :=
  iterate_eq_walk s fuel (linked_instance_head s)

/-! ## Reachable states -/

theorem exec_m_prev_ne_self :
    ∀ (ops : List Op) (created live : List Nat) (s : Registry),
      wellFormedFrom created live ops = true →
      (∀ t, s.s_tail = some t → t ∈ created) →
      (∀ y, s.m_prev y ≠ some y) →
      ∀ y, (exec s ops).m_prev y ≠ some y
  | [], _, _, _, _, _, hp => hp
  | .create x :: ops, created, live, s, hwf, ht, hp => by
      simp only [wellFormedFrom, Bool.and_eq_true, Bool.not_eq_true'] at hwf
      have hx : x ∉ created := by simpa using hwf.1
      rw [exec_cons]
      refine exec_m_prev_ne_self ops (x :: created) (live ++ [x]) _ hwf.2 ?_ ?_
      · intro t htt
        rw [apply, construct_s_tail] at htt
        cases htt
        exact List.mem_cons_self _ _
      · intro y
        rw [apply, construct_m_prev]
        by_cases hy : y = x
        · subst hy
          rw [store_same]
          intro e
          exact hx (ht y e)
        · rw [store_other _ _ _ _ hy, store_other _ _ _ _ hy]
          exact hp y
  | .destroy x :: ops, created, live, s, hwf, ht, hp => by
      simp only [wellFormedFrom, Bool.and_eq_true] at hwf
      rw [exec_cons]
      refine exec_m_prev_ne_self ops created (live.erase x) _ hwf.2 ?_ ?_
      · intro t htt
        rw [apply, destruct_s_tail] at htt
        exact ht t htt
      · intro y
        rw [apply, destruct_m_prev]
        by_cases hy : y = x
        · subst hy
          rw [store_same]
          exact fun e => nomatch e
        · rw [store_other _ _ _ _ hy]
          exact hp y

theorem run_m_prev_ne_self (ops : List Op) (hwf : wellFormed ops = true) (y : Nat) :
    (run ops).m_prev y ≠ some y :=
  exec_m_prev_ne_self ops [] [] empty hwf (fun _ h => nomatch h) (fun _ h => nomatch h) y

/-! ## The claims -/

/-- Claim C1 fails on the code.  The well-formed sequence create 0, create 1,
destroy 1, create 2 leaves the instances 0 and 2 live, but forward traversal from
the head visits 0 only, whatever the fuel: `unlink` of the tail 1 leaves `s_tail`
at 1, so `link` of 2 stores 2 in the `m_next` of the destroyed 1, not of 0. -/
theorem forward_misses_live_instance :
    wellFormed [.create 0, .create 1, .destroy 1, .create 2] = true ∧
    liveAfter [] [.create 0, .create 1, .destroy 1, .create 2] = [0, 2] ∧
    forward (run [.create 0, .create 1, .destroy 1, .create 2]) 4 = some [0] ∧
    rangeFor (run [.create 0, .create 1, .destroy 1, .create 2]) 4 = .ok [0] ∧
    ∀ fuel, forward (run [.create 0, .create 1, .destroy 1, .create 2]) fuel ≠
      some (liveAfter [] [.create 0, .create 1, .destroy 1, .create 2]) := by
  refine ⟨by decide, by decide, by decide, rfl, ?_⟩
  intro fuel
  cases fuel with
  | zero => decide
  | succ n =>
      have h0 : (run [.create 0, .create 1, .destroy 1, .create 2]).s_head = some 0 := by
        decide
      have h1 : (run [.create 0, .create 1, .destroy 1, .create 2]).m_next 0 = none := by
        decide
      have hw : forward (run [.create 0, .create 1, .destroy 1, .create 2]) (n + 1) =
          some [0] := by
        unfold forward linked_instance_head linked_instance_next
        rw [h0]
        unfold walk
        rw [h1]
        cases n <;> rfl
      rw [hw]
      decide

/-- Claim C2 fails on the code.  After the well-formed sequence create 0, create 1,
create 2, destroy 1 the instance 0 has `m_next` 2, but the `m_prev` of 2 is still
the destroyed instance 1, not 0: `unlink` writes no successor's `m_prev`. -/
theorem stale_prev_after_unlink :
    wellFormed [.create 0, .create 1, .create 2, .destroy 1] = true ∧
    (run [.create 0, .create 1, .create 2, .destroy 1]).m_next 0 = some 2 ∧
    (run [.create 0, .create 1, .create 2, .destroy 1]).m_prev 2 = some 1 ∧
    (run [.create 0, .create 1, .create 2, .destroy 1]).m_prev 2 ≠ some 0 := by
  refine ⟨by decide, by decide, by decide, by decide⟩

/-- Claim C3.  Creating the distinct instances `xs` (at least one) from the empty
registry, with no destruction, gives head the first and tail the last of `xs`,
forward traversal `xs` and reverse traversal `xs` reversed; the traversals return
for every fuel of at least the number of instances. -/
theorem creations_order (xs : List Nat) (hne : xs ≠ []) (hnd : xs.Nodup) (fuel : Nat)
    (hf : xs.length ≤ fuel) :
    linked_instance_head (run (creations xs)) = some (xs.head hne) ∧
    linked_instance_tail (run (creations xs)) = some (xs.getLast hne) ∧
    forward (run (creations xs)) fuel = some xs ∧
    backward (run (creations xs)) fuel = some xs.reverse := by
  have hc := chain_creations xs hnd
  refine ⟨?_, ?_, chain_forward hc fuel hf, chain_backward hc fuel hf⟩
  · unfold linked_instance_head
    rw [chain_s_head hc, List.head?_eq_head hne]
  · unfold linked_instance_tail
    rw [chain_s_tail hc, List.getLast?_eq_getLast _ hne]

theorem creations_order_witness :
    ([0, 1, 2] : List Nat) ≠ [] ∧ ([0, 1, 2] : List Nat).Nodup ∧
    linked_instance_head (run (creations [0, 1, 2])) = some 0 ∧
    linked_instance_tail (run (creations [0, 1, 2])) = some 2 ∧
    forward (run (creations [0, 1, 2])) 3 = some [0, 1, 2] ∧
    backward (run (creations [0, 1, 2])) 3 = some [2, 1, 0] :=
  ⟨by decide, by decide, creations_order [0, 1, 2] (by decide) (by decide) 3 (by decide)⟩

/-- Claim C4.  `link` on an instance `x` whose `m_next` is empty and which is not
the current tail (a fresh instance) sets `x.m_prev` to the old tail, the old tail's
`m_next` to `x` when there is an old tail, `s_tail` to `x`, `s_head` to `x` when it
was empty and leaves it otherwise, leaves `x.m_next` empty, and leaves the `m_prev`
of every other instance and the `m_next` of every instance other than the old tail
unchanged.  The default and the copy constructor both run `link` on `x` with its
two fields initialised empty. -/
theorem link_spec (s : Registry) (x : Nat) (hnext : s.m_next x = none)
    (hfresh : s.s_tail ≠ some x) :
    (link x s).m_prev x = s.s_tail ∧
    (∀ t, s.s_tail = some t → (link x s).m_next t = some x) ∧
    (link x s).s_tail = some x ∧
    (s.s_head = none → (link x s).s_head = some x) ∧
    (s.s_head ≠ none → (link x s).s_head = s.s_head) ∧
    (link x s).m_next x = none ∧
    (∀ y, y ≠ x → (link x s).m_prev y = s.m_prev y) ∧
    (∀ y, s.s_tail ≠ some y → (link x s).m_next y = s.m_next y) ∧
    (∀ s0 : Registry, construct x s0 = link x (member_init x s0)) ∧
    (∀ (s0 : Registry) (src : Nat), copy_construct src x s0 = link x (member_init x s0)) := by
  unfold link
  cases hh : s.s_head <;> cases ht : s.s_tail <;>
    simp only [hh, ht, store, if_true, true_and, reduceCtorEq, ne_eq, not_true_eq_false,
      not_false_eq_true, false_implies, implies_true, and_true, Option.some.injEq,
      forall_eq', hnext, construct, copy_construct, link]
  · intro y hy
    simp [hy]
  · rename_i t
    have hxt : x ≠ t := fun e => hfresh (by rw [ht, e])
    refine ⟨?_, ?_, ?_⟩
    · simp [hxt, hnext]
    · intro y hy
      simp [hy]
    · intro y hy
      have : y ≠ t := fun e => hy (by rw [e])
      simp [this]
  · intro y hy
    simp [hy]
  · rename_i h t
    have hxt : x ≠ t := fun e => hfresh (by rw [ht, e])
    refine ⟨?_, ?_, ?_⟩
    · simp [hxt, hnext]
    · intro y hy
      simp [hy]
    · intro y hy
      have : y ≠ t := fun e => hy (by rw [e])
      simp [this]

theorem link_spec_witness :
    (member_init 1 (run [.create 0])).m_next 1 = none ∧
    (member_init 1 (run [.create 0])).s_tail ≠ some 1 ∧
    (link 1 (member_init 1 (run [.create 0]))).m_prev 1 = some 0 ∧
    (link 1 (member_init 1 (run [.create 0]))).m_next 0 = some 1 ∧
    (link 1 (member_init 1 (run [.create 0]))).s_tail = some 1 ∧
    (link 1 (member_init 1 (run [.create 0]))).s_head = some 0 ∧
    (link 1 (member_init 1 (run [.create 0]))).m_next 1 = none :=
  have h := link_spec (member_init 1 (run [.create 0])) 1 (by decide) (by decide)
  ⟨by decide, by decide, h.1, h.2.1 0 (by decide), h.2.2.1,
    (h.2.2.2.2.1 (by decide)).trans (by decide), h.2.2.2.2.2.1⟩

/-- Claim C5.  `unlink` of an instance `x` that is not its own predecessor: when
`x.m_prev` is an instance `p`, afterwards `p.m_next` is the former `x.m_next` and
`s_head` is unchanged; when `x.m_prev` is empty, afterwards `s_head` is the former
`x.m_next`; in both cases `x.m_next` and `x.m_prev` are empty afterwards. -/
theorem unlink_spec (s : Registry) (x : Nat) (hself : s.m_prev x ≠ some x) :
    (∀ p, s.m_prev x = some p →
      (unlink x s).m_next p = s.m_next x ∧ (unlink x s).s_head = s.s_head) ∧
    (s.m_prev x = none → (unlink x s).s_head = s.m_next x) ∧
    (unlink x s).m_next x = none ∧
    (unlink x s).m_prev x = none := by
  have hn := destruct_m_next x s
  have hh := destruct_s_head x s
  have hp := destruct_m_prev x s
  unfold destruct at hn hh hp
  refine ⟨?_, ?_, ?_, ?_⟩
  · intro p hpx
    have hpne : p ≠ x := fun e => hself (by rw [hpx, e])
    rw [hn, hh, hpx]
    dsimp only
    exact ⟨by rw [store_other _ _ _ _ hpne, store_same], rfl⟩
  · intro hpx
    rw [hh, hpx]
  · rw [hn]
    cases s.m_prev x <;> exact store_same _ _ _
  · rw [hp]
    exact store_same _ _ _

theorem unlink_spec_witness :
    (run [.create 0, .create 1, .create 2]).m_prev 1 ≠ some 1 ∧
    (unlink 1 (run [.create 0, .create 1, .create 2])).m_next 0 = some 2 ∧
    (unlink 1 (run [.create 0, .create 1, .create 2])).s_head = some 0 ∧
    (unlink 1 (run [.create 0, .create 1, .create 2])).m_next 1 = none ∧
    (unlink 1 (run [.create 0, .create 1, .create 2])).m_prev 1 = none :=
  have h := unlink_spec (run [.create 0, .create 1, .create 2]) 1 (by decide)
  ⟨by decide, ((h.1 0 (by decide)).1).trans (by decide),
    ((h.1 0 (by decide)).2).trans (by decide), h.2.2.1, h.2.2.2⟩

/-- Claim C6 fails on the code.  After create 0, create 1, create 2, destroy 1 the
predecessor reported for 2 is still the destroyed instance 1, where the claim says
0; and after create 0, create 1, destroy 1, where the destroyed instance has no
successor, the tail is still 1, where the claim says 0.  `unlink` has no update on
the successor side. -/
theorem unlink_skips_successor_side :
    linked_instance_prev (run [.create 0, .create 1, .create 2, .destroy 1]) 2 = some 1 ∧
    linked_instance_prev (run [.create 0, .create 1, .create 2]) 1 = some 0 ∧
    linked_instance_prev (run [.create 0, .create 1, .create 2, .destroy 1]) 2 ≠ some 0 ∧
    linked_instance_next (run [.create 0, .create 1]) 1 = none ∧
    linked_instance_prev (run [.create 0, .create 1]) 1 = some 0 ∧
    linked_instance_tail (run [.create 0, .create 1, .destroy 1]) = some 1 := by
  refine ⟨by decide, by decide, by decide, by decide, by decide, by decide⟩

/-- Claim C7.  After creating the distinct instances `xs` from the empty registry,
destroying the instance at any position `k` leaves forward traversal `xs` without
that position, order preserved, for every fuel of at least the number of instances;
and when the position has both neighbours, the `linked_instance_next` of the
instance before it is the instance after it. -/
theorem destroy_one_after_creations (xs : List Nat) (hnd : xs.Nodup) (k : Nat)
    (hk : k < xs.length) (fuel : Nat) (hf : xs.length ≤ fuel) :
    forward (run (creations xs ++ [Op.destroy (xs.get ⟨k, hk⟩)])) fuel =
      some (xs.eraseIdx k) ∧
    ∀ (h0 : 0 < k) (h1 : k + 1 < xs.length),
      linked_instance_next (run (creations xs ++ [Op.destroy (xs.get ⟨k, hk⟩)]))
        (xs.get ⟨k - 1, by omega⟩) = some (xs.get ⟨k + 1, h1⟩) := by
  have hsplit : xs = xs.take k ++ xs.get ⟨k, hk⟩ :: xs.drop (k + 1) := by
    simp
  have hc := chain_creations xs hnd
  have hrun : run (creations xs ++ [Op.destroy (xs.get ⟨k, hk⟩)]) =
      destruct (xs.get ⟨k, hk⟩) (run (creations xs)) := by
    simp [run, exec, List.foldl_append, apply]
  rw [hrun]
  generalize hx : xs.get ⟨k, hk⟩ = x at hsplit
  have hc' : Chain (run (creations xs)) (xs.take k ++ x :: xs.drop (k + 1)) := by
    rw [← hsplit]
    exact hc
  have hd := destruct_next_seg hc'.1 hc'.2.1 (chain_m_prev hc')
  refine ⟨?_, ?_⟩
  · rw [List.eraseIdx_eq_take_drop_succ]
    refine walk_of_seg _ _ fuel hd.1 ?_
    simp only [List.length_append, List.length_take, List.length_drop]
    omega
  · intro h0 h1
    have hlast : (xs.take k).getLast? = some (xs.get ⟨k - 1, by omega⟩) := by
      rw [List.getLast?_take]
      have hk0 : k ≠ 0 := by omega
      simp only [hk0, if_false]
      rw [List.getElem?_eq_getElem (by omega)]
      simp
    unfold linked_instance_next
    rw [hd.2 _ hlast, List.head?_drop, List.getElem?_eq_getElem h1]
    simp

theorem destroy_one_after_creations_witness :
    ([0, 1, 2] : List Nat).Nodup ∧ 1 < ([0, 1, 2] : List Nat).length ∧
    ([0, 1, 2] : List Nat).length ≤ 3 ∧
    forward (run (creations [0, 1, 2] ++ [Op.destroy 1])) 3 = some [0, 2] ∧
    linked_instance_next (run (creations [0, 1, 2] ++ [Op.destroy 1])) 0 = some 2 :=
  have h := destroy_one_after_creations [0, 1, 2] (by decide) 1 (by decide) 3 (by decide)
  ⟨by decide, by decide, by decide, h.1, h.2 (by decide) (by decide)⟩

/-- Claim C8 fails on the code.  After the well-formed sequence create 0, destroy 0
no instance is live and the head is empty, but the tail is still the destroyed
instance 0; after create 0, create 1, destroy 0, destroy 1 no instance is live, but
the head is still the destroyed instance 1 and the range loop visits it. -/
theorem tail_not_cleared_when_empty :
    wellFormed [.create 0, .destroy 0] = true ∧
    liveAfter [] [.create 0, .destroy 0] = [] ∧
    linked_instance_head (run [.create 0, .destroy 0]) = none ∧
    linked_instance_tail (run [.create 0, .destroy 0]) = some 0 ∧
    wellFormed [.create 0, .create 1, .destroy 0, .destroy 1] = true ∧
    liveAfter [] [.create 0, .create 1, .destroy 0, .destroy 1] = [] ∧
    linked_instance_head (run [.create 0, .create 1, .destroy 0, .destroy 1]) = some 1 ∧
    rangeFor (run [.create 0, .create 1, .destroy 0, .destroy 1]) 4 = .ok [1] := by
  refine ⟨by decide, by decide, by decide, by decide, by decide, by decide, by decide, rfl⟩

/-- Claim C9.  From the empty registry, after creating the outer instances and then
the inner instances (all distinct), forward traversal yields the outer followed by
the inner instances; after then destroying the inner instances in reverse creation
order, forward traversal yields exactly the outer instances, the
`linked_instance_next` of the last outer instance is empty, and the head is empty
when there is no outer instance.  The traversals return for every fuel of at least
the number of instances created. -/
theorem scoped_lifetime (outer inner : List Nat) (hnd : (outer ++ inner).Nodup)
    (fuel : Nat) (hf : (outer ++ inner).length ≤ fuel) :
    forward (run (creations outer ++ creations inner)) fuel = some (outer ++ inner) ∧
    forward (run (creations outer ++ creations inner ++ destructions inner.reverse)) fuel =
      some outer ∧
    (∀ a, outer.getLast? = some a →
      linked_instance_next
        (run (creations outer ++ creations inner ++ destructions inner.reverse)) a = none) ∧
    (outer = [] →
      linked_instance_head
        (run (creations outer ++ creations inner ++ destructions inner.reverse)) = none) := by
  have hc : Chain (run (creations outer ++ creations inner)) (outer ++ inner) := by
    rw [← creations_append]
    exact chain_creations _ hnd
  have hs : Stack (run (creations outer ++ creations inner ++ destructions inner.reverse))
      outer := by
    unfold run
    rw [exec_append]
    exact stack_destructions outer inner (chain_stack hc)
  have hlen : outer.length ≤ fuel := by
    rw [List.length_append] at hf
    omega
  refine ⟨chain_forward hc fuel hf, stack_forward hs fuel hlen, ?_, ?_⟩
  · intro a ha
    obtain ⟨r, hr⟩ : ∃ r, outer = r ++ [a] := by
      rcases List.eq_nil_or_concat outer with h | ⟨r, b, h⟩
      · rw [h] at ha
        cases ha
      · refine ⟨r, ?_⟩
        rw [h] at ha ⊢
        simp at ha
        rw [ha]
        simp
    have hseg := hs.2.1
    generalize run (creations outer ++ creations inner ++ destructions inner.reverse) = st
      at hseg ⊢
    rw [hr] at hseg
    exact ((seg_snoc r a _ _).1 hseg).2
  · intro ho
    have hseg := hs.2.1
    generalize run (creations outer ++ creations inner ++ destructions inner.reverse) = st
      at hseg ⊢
    rw [ho] at hseg
    exact hseg

theorem scoped_lifetime_witness :
    (([0, 1] : List Nat) ++ [2, 3, 4]).Nodup ∧ (([0, 1] : List Nat) ++ [2, 3, 4]).length ≤ 5 ∧
    forward (run (creations [0, 1] ++ creations [2, 3, 4])) 5 = some [0, 1, 2, 3, 4] ∧
    forward (run (creations [0, 1] ++ creations [2, 3, 4] ++ destructions [4, 3, 2])) 5 =
      some [0, 1] ∧
    linked_instance_next
      (run (creations [0, 1] ++ creations [2, 3, 4] ++ destructions [4, 3, 2])) 1 = none :=
  have h := scoped_lifetime [0, 1] [2, 3, 4] (by decide) 5 (by decide)
  ⟨by decide, by decide, h.1, h.2.1, h.2.2.1 1 (by decide)⟩

/-- Claim C10 as stated fails: it is not the case that, for every registry with a
non-empty tail, retreating the end iterator of the range returns an iterator at the
tail.  After create 0 the tail is 0 and `operator--` on the end iterator fails the
assertion of `checked_current`. -/
theorem operator_dec_end_counterexample :
    linked_instance_tail (run [.create 0]) = some 0 ∧
    (linked_instance_range (run [.create 0])).end_.operator_dec (run [.create 0]) =
      .error Fault.assertion ∧
    ¬ ∀ s : Registry, linked_instance_tail s ≠ none →
        (linked_instance_range s).end_.operator_dec s =
          .ok { m_curr := linked_instance_tail s } := by
  refine ⟨by decide, rfl, ?_⟩
  intro h
  have h0 := h (run [.create 0]) (by decide)
  exact nomatch h0

/-- Claim C10, amended.  For every registry, retreating (`operator--`) the end
iterator of the range fails the assertion of `checked_current` and yields no
position; retreating an iterator positioned at an instance `x` succeeds and leaves it
positioned at `linked_instance_prev` of `x`. -/
theorem operator_dec_spec (s : Registry) :
    (linked_instance_range s).end_.operator_dec s = .error Fault.assertion ∧
    ∀ x : Nat, LinkedInstanceIterator.operator_dec s { m_curr := some x } =
      .ok { m_curr := linked_instance_prev s x } := by
  refine ⟨rfl, fun _ => rfl⟩

/-! ## Advancing along a chain -/

theorem advance_seg (s : Registry) :
    ∀ (xs : List Nat) (a : Option Nat) (j : Nat), Seg s.m_next a xs none → j ≤ xs.length →
      LinkedInstanceIterator.advance s j { m_curr := a } = .ok { m_curr := xs[j]? }
  | [], a, j, h, hj => by
      have ha : a = none := h
      have hj0 : j = 0 := by simpa using hj
      subst ha hj0
      rfl
  | x :: r, a, 0, h, _ => by
      have ha : a = some x := h.1
      subst ha
      simp [LinkedInstanceIterator.advance]
  | x :: r, a, j + 1, h, hj => by
      have ha : a = some x := h.1
      subst ha
      have hj1 : j ≤ r.length := by simpa using hj
      have ih := advance_seg s r (s.m_next x) j h.2 hj1
      simpa [LinkedInstanceIterator.advance, LinkedInstanceIterator.operator_inc,
        LinkedInstanceIterator.move_forward, LinkedInstanceIterator.deref,
        LinkedInstanceIterator.checked_current, linked_instance_next] using ih

/-- Claim C11.  Pre-increment and post-increment of an iterator positioned at an
instance `x` leave it positioned at `linked_instance_next` of `x`.  For a chain built
from the empty registry by creating the distinct instances `xs` (at least one),
advancing an iterator positioned at the last instance gives the end iterator of the
range, and advancing `j` times from `begin()` succeeds for every `j` up to the
number of instances, arrives at the instance of index `j`, and compares equal to
`end()` exactly when `j` is the number of instances. -/
theorem operator_inc_spec (s : Registry) (x : Nat) (xs : List Nat) (hne : xs ≠ [])
    (hnd : xs.Nodup) :
    LinkedInstanceIterator.operator_inc s { m_curr := some x } =
      .ok { m_curr := linked_instance_next s x } ∧
    LinkedInstanceIterator.operator_inc_post s { m_curr := some x } =
      .ok ({ m_curr := some x }, { m_curr := linked_instance_next s x }) ∧
    LinkedInstanceIterator.operator_inc (run (creations xs))
        { m_curr := some (xs.getLast hne) } =
      .ok (linked_instance_range (run (creations xs))).end_ ∧
    ∀ j, j ≤ xs.length →
      ∃ it, LinkedInstanceIterator.advance (run (creations xs)) j
          (linked_instance_range (run (creations xs))).begin = .ok it ∧
        it.m_curr = xs[j]? ∧
        (it.operator_eq (linked_instance_range (run (creations xs))).end_ = true ↔
          j = xs.length) := by
  have hc := chain_creations xs hnd
  refine ⟨rfl, rfl, ?_, ?_⟩
  · have hlast : (run (creations xs)).m_next (xs.getLast hne) = none := by
      have hseg := hc.2.1
      generalize run (creations xs) = st at hseg ⊢
      obtain ⟨r, t, hr⟩ : ∃ r t, xs = r ++ [t] := by
        rcases List.eq_nil_or_concat xs with h | ⟨r, t, h⟩
        · exact absurd h hne
        · exact ⟨r, t, by simpa using h⟩
      subst hr
      rw [List.getLast_append_singleton]
      exact ((seg_snoc r t _ _).1 hseg).2
    show (Except.ok { m_curr := (run (creations xs)).m_next (xs.getLast hne) } :
      Except Fault LinkedInstanceIterator) = _
    rw [hlast]
    rfl
  · intro j hj
    refine ⟨{ m_curr := xs[j]? }, advance_seg _ xs _ j hc.2.1 hj, rfl, ?_⟩
    simp only [LinkedInstanceIterator.operator_eq, linked_instance_range,
      LinkedInstanceRange.end_, beq_iff_eq]
    rw [List.getElem?_eq_none_iff]
    omega

theorem operator_inc_spec_witness :
    ([0, 1, 2] : List Nat) ≠ [] ∧ ([0, 1, 2] : List Nat).Nodup ∧
    LinkedInstanceIterator.operator_inc (run (creations [0, 1, 2])) { m_curr := some 1 } =
      .ok { m_curr := some 2 } ∧
    LinkedInstanceIterator.operator_inc (run (creations [0, 1, 2])) { m_curr := some 2 } =
      .ok (linked_instance_range (run (creations [0, 1, 2]))).end_ :=
  have h := operator_inc_spec (run (creations [0, 1, 2])) 1 [0, 1, 2] (by decide) (by decide)
  ⟨by decide, by decide, h.1.trans rfl, h.2.2.1⟩

/-- Claim C12.  Dereferencing (`operator*`, `operator->`, through `checked_current`)
fails the assertion exactly when the iterator is at the end sentinel; at an instance
it returns that instance; and `valid()` and `operator bool` are true exactly when
dereferencing returns an instance. -/
theorem deref_spec (it : LinkedInstanceIterator) :
    (it.deref = .error Fault.assertion ↔ it.m_curr = none) ∧
    (∀ x, it.deref = .ok x ↔ it.m_curr = some x) ∧
    (it.valid = true ↔ ∃ x, it.deref = .ok x) ∧
    (it.valid = false ↔ it.deref = .error Fault.assertion) ∧
    it.operator_bool = it.valid ∧
    it.checked_current = it.deref := by
  obtain ⟨c⟩ := it
  cases c <;>
    simp [LinkedInstanceIterator.deref, LinkedInstanceIterator.checked_current,
      LinkedInstanceIterator.valid, LinkedInstanceIterator.operator_bool]

/-- Claim C13 fails on the code.  With an iterator positioned at the live instance 0
of the chain built by create 0, create 1: after destroy 1, create 2 the instances 0
and 2 are live, but continuing from 0 reaches the end sentinel without visiting 2;
and with the chain create 0, create 1, create 2, after destroy 1, destroy 2 only 0 is
live, but continuing from 0 visits the destroyed instance 2. -/
theorem advance_after_mutation :
    wellFormed [.create 0, .create 1, .destroy 1, .create 2] = true ∧
    liveAfter [] [.create 0, .create 1, .destroy 1, .create 2] = [0, 2] ∧
    iterate (run [.create 0, .create 1, .destroy 1, .create 2]) { m_curr := none } 4
      { m_curr := some 0 } = .ok [0] ∧
    LinkedInstanceIterator.operator_inc (run [.create 0, .create 1, .destroy 1, .create 2])
      { m_curr := some 0 } = .ok { m_curr := none } ∧
    wellFormed [.create 0, .create 1, .create 2, .destroy 1, .destroy 2] = true ∧
    liveAfter [] [.create 0, .create 1, .create 2, .destroy 1, .destroy 2] = [0] ∧
    iterate (run [.create 0, .create 1, .create 2, .destroy 1, .destroy 2]) { m_curr := none } 4
      { m_curr := some 0 } = .ok [0, 2] := by
  refine ⟨by decide, by decide, rfl, rfl, by decide, by decide, rfl⟩

/-! ## Objects with a payload -/

theorem declare_reg :
    ∀ (decls : List (Nat × Int)) (w : Numbers),
      (declare w decls).reg = exec w.reg (creations (decls.map Prod.fst))
  | [], _ => rfl
  | d :: r, w => by
      have ih := declare_reg r (Number_construct d.1 d.2 w)
      simpa [declare, creations, exec, apply, Number_construct] using ih

theorem declare_i_other :
    ∀ (decls : List (Nat × Int)) (w : Numbers) (x : Nat), x ∉ decls.map Prod.fst →
      (declare w decls).i x = w.i x
  | [], _, _, _ => rfl
  | d :: r, w, x, hx => by
      have hx1 : x ≠ d.1 := fun e => hx (by simp [e])
      have hx2 : x ∉ r.map Prod.fst := fun h => hx (by simp at h ⊢; exact Or.inr h)
      have ih := declare_i_other r (Number_construct d.1 d.2 w) x hx2
      have hstep : declare w (d :: r) = declare (Number_construct d.1 d.2 w) r := rfl
      rw [hstep, ih]
      simp [Number_construct, hx1]

theorem declare_i :
    ∀ (decls : List (Nat × Int)) (w : Numbers), (decls.map Prod.fst).Nodup →
      (decls.map Prod.fst).map (declare w decls).i = decls.map Prod.snd
  | [], _, _ => rfl
  | d :: r, w, hnd => by
      rw [List.map_cons, List.nodup_cons] at hnd
      have ih := declare_i r (Number_construct d.1 d.2 w) hnd.2
      have hstep : declare w (d :: r) = declare (Number_construct d.1 d.2 w) r := rfl
      rw [hstep, List.map_cons, List.map_cons, List.map_cons, ih,
        declare_i_other r _ d.1 hnd.1]
      simp [Number_construct]

theorem printAndUpdate_seg (f : Int → Int) :
    ∀ (xs : List Nat) (a : Option Nat) (fuel : Nat) (w : Numbers),
      Seg w.reg.m_next a xs none → xs.Nodup → xs.length ≤ fuel →
      ∃ w2, printAndUpdate f { m_curr := none } fuel { m_curr := a } w = .ok (xs.map w.i, w2) ∧
        w2.reg = w.reg ∧ (∀ y ∈ xs, w2.i y = f (w.i y)) ∧ (∀ y, y ∉ xs → w2.i y = w.i y)
  | [], a, fuel, w, h, _, _ => by
      have ha : a = none := h
      subst ha
      refine ⟨w, ?_, rfl, fun y hy => absurd hy (List.not_mem_nil y), fun _ _ => rfl⟩
      cases fuel <;> rfl
  | x :: r, a, 0, w, _, _, hf => by simp at hf
  | x :: r, a, fuel + 1, w, h, hnd, hf => by
      have ha : a = some x := h.1
      subst ha
      rw [List.nodup_cons] at hnd
      have hf1 : r.length ≤ fuel := by simpa using hf
      obtain ⟨w2, hrun, hreg, hin, hout⟩ :=
        printAndUpdate_seg f r (w.reg.m_next x) fuel
          { w with i := fun y => if y = x then f (w.i x) else w.i y } h.2 hnd.2 hf1
      refine ⟨w2, ?_, hreg, ?_, ?_⟩
      · have hmap : r.map (fun y => if y = x then f (w.i x) else w.i y) = r.map w.i := by
          refine List.map_congr_left (fun y hy => ?_)
          have hyx : y ≠ x := fun e => hnd.1 (e ▸ hy)
          simp [hyx]
        rw [hmap] at hrun
        simp only [printAndUpdate, LinkedInstanceIterator.operator_ne,
          LinkedInstanceIterator.operator_eq, LinkedInstanceIterator.deref,
          LinkedInstanceIterator.checked_current, LinkedInstanceIterator.operator_inc,
          LinkedInstanceIterator.move_forward, linked_instance_next]
        simp [hrun]
      · intro y hy
        rcases List.mem_cons.1 hy with hyx | hyr
        · subst hyx
          rw [hout y hnd.1]
          simp
        · have hyx : y ≠ x := fun e => hnd.1 (e ▸ hyr)
          rw [hin y hyr]
          simp [hyx]
      · intro y hy
        have hyx : y ≠ x := fun e => hy (by simp [e])
        have hyr : y ∉ r := fun h => hy (List.mem_cons_of_mem x h)
        rw [hout y hyr]
        simp [hyx]

theorem printConst_seg (w : Numbers) :
    ∀ (xs : List Nat) (a : Option Nat) (fuel : Nat),
      Seg w.reg.m_next a xs none → xs.length ≤ fuel →
      printConst w { m_curr := none } fuel { m_curr := a } = .ok (xs.map w.i)
  | [], a, fuel, h, _ => by
      have ha : a = none := h
      subst ha
      cases fuel <;> rfl
  | x :: r, a, 0, _, hf => by simp at hf
  | x :: r, a, fuel + 1, h, hf => by
      have ha : a = some x := h.1
      subst ha
      have hf1 : r.length ≤ fuel := by simpa using hf
      have ih := printConst_seg w r (w.reg.m_next x) fuel h.2 hf1
      simp only [printConst, ConstLinkedInstanceIterator.ne_const,
        ConstLinkedInstanceIterator.operator_bool, ConstLinkedInstanceIterator.valid,
        ConstLinkedInstanceIterator.deref, ConstLinkedInstanceIterator.checked_current,
        ConstLinkedInstanceIterator.operator_inc, linked_instance_next]
      simp [ih]

/-! ## Well-formed event sequences -/

theorem wellFormedFrom_append :
    ∀ (ops1 ops2 : List Op) (c l : List Nat),
      wellFormedFrom c l (ops1 ++ ops2) =
        (wellFormedFrom c l ops1 &&
          wellFormedFrom (createdAfter c ops1) (liveAfter l ops1) ops2)
  | [], _, _, _ => by simp [wellFormedFrom, createdAfter, liveAfter]
  | .create x :: ops1, ops2, c, l => by
      simp [wellFormedFrom, createdAfter, liveAfter,
        wellFormedFrom_append ops1 ops2 (x :: c) (l ++ [x]), Bool.and_assoc]
  | .destroy x :: ops1, ops2, c, l => by
      simp [wellFormedFrom, createdAfter, liveAfter,
        wellFormedFrom_append ops1 ops2 c (l.erase x), Bool.and_assoc]

theorem liveAfter_append :
    ∀ (ops1 ops2 : List Op) (l : List Nat),
      liveAfter l (ops1 ++ ops2) = liveAfter (liveAfter l ops1) ops2
  | [], _, _ => rfl
  | .create x :: ops1, ops2, l => liveAfter_append ops1 ops2 (l ++ [x])
  | .destroy x :: ops1, ops2, l => liveAfter_append ops1 ops2 (l.erase x)

theorem live_invariant :
    ∀ (ops : List Op) (c l : List Nat), wellFormedFrom c l ops = true →
      l.Nodup → (∀ y ∈ l, y ∈ c) →
      (liveAfter l ops).Nodup ∧ ∀ y ∈ liveAfter l ops, y ∈ createdAfter c ops
  | [], _, _, _, hnd, hsub => ⟨hnd, hsub⟩
  | .create x :: ops, c, l, hwf, hnd, hsub => by
      simp only [wellFormedFrom, Bool.and_eq_true, Bool.not_eq_true'] at hwf
      have hx : x ∉ c := by simpa using hwf.1
      refine live_invariant ops (x :: c) (l ++ [x]) hwf.2 ?_ ?_
      · rw [List.nodup_append]
        refine ⟨hnd, List.nodup_singleton x, ?_⟩
        intro a ha hb
        rw [List.mem_singleton] at hb
        subst hb
        exact hx (hsub a ha)
      · intro y hy
        rcases List.mem_append.1 hy with h | h
        · exact List.mem_cons_of_mem x (hsub y h)
        · rw [List.mem_singleton] at h
          rw [h]
          exact List.mem_cons_self x c
  | .destroy x :: ops, c, l, hwf, hnd, hsub => by
      simp only [wellFormedFrom, Bool.and_eq_true] at hwf
      exact live_invariant ops c (l.erase x) hwf.2 (hnd.erase x)
        (fun y hy => hsub y (List.mem_of_mem_erase hy))

theorem dead_stays_dead (x : Nat) :
    ∀ (ops : List Op) (c l : List Nat), wellFormedFrom c l ops = true →
      x ∈ c → x ∉ l → x ∉ liveAfter l ops
  | [], _, _, _, _, hl => hl
  | .create y :: ops, c, l, hwf, hc, hl => by
      simp only [wellFormedFrom, Bool.and_eq_true, Bool.not_eq_true'] at hwf
      have hy : y ∉ c := by simpa using hwf.1
      have hxy : x ≠ y := fun e => hy (e ▸ hc)
      refine dead_stays_dead x ops (y :: c) (l ++ [y]) hwf.2 (List.mem_cons_of_mem y hc) ?_
      intro h
      rcases List.mem_append.1 h with h | h
      · exact hl h
      · exact hxy (List.mem_singleton.1 h)
  | .destroy y :: ops, c, l, hwf, hc, hl => by
      simp only [wellFormedFrom, Bool.and_eq_true] at hwf
      exact dead_stays_dead x ops c (l.erase y) hwf.2 hc
        (fun h => hl (List.mem_of_mem_erase h))

theorem exec_m_prev_of_live (x : Nat) :
    ∀ (ops : List Op) (c l : List Nat) (s : Registry), wellFormedFrom c l ops = true →
      x ∈ c → l.Nodup → (∀ y ∈ l, y ∈ c) → x ∈ liveAfter l ops →
      (exec s ops).m_prev x = s.m_prev x
  | [], _, _, _, _, _, _, _, _ => rfl
  | .create y :: ops, c, l, s, hwf, hc, hnd, hsub, hlive => by
      have hinv := live_invariant [.create y] c l
        (by
          simp only [wellFormedFrom, Bool.and_eq_true, Bool.not_eq_true'] at hwf ⊢
          exact ⟨hwf.1, trivial⟩) hnd hsub
      simp only [wellFormedFrom, Bool.and_eq_true, Bool.not_eq_true'] at hwf
      have hy : y ∉ c := by simpa using hwf.1
      have hxy : x ≠ y := fun e => hy (e ▸ hc)
      rw [exec_cons, exec_m_prev_of_live x ops (y :: c) (l ++ [y]) _ hwf.2
        (List.mem_cons_of_mem y hc) hinv.1 hinv.2 hlive]
      rw [apply, construct_m_prev, store_other _ _ _ _ hxy, store_other _ _ _ _ hxy]
  | .destroy y :: ops, c, l, s, hwf, hc, hnd, hsub, hlive => by
      simp only [wellFormedFrom, Bool.and_eq_true] at hwf
      have hxy : x ≠ y := by
        intro e
        subst e
        have hnot : x ∉ l.erase x := fun h => (hnd.mem_erase_iff.1 h).1 rfl
        exact dead_stays_dead x ops c (l.erase x) hwf.2 hc hnot hlive
      rw [exec_cons, exec_m_prev_of_live x ops c (l.erase y) _ hwf.2 hc (hnd.erase y)
        (fun z hz => hsub z (List.mem_of_mem_erase hz)) hlive]
      rw [apply, destruct_m_prev, store_other _ _ _ _ hxy]

theorem exec_s_tail :
    ∀ (ops : List Op) (c : List Nat) (s : Registry), s.s_tail = c.head? →
      (exec s ops).s_tail = (createdAfter c ops).head?
  | [], _, _, h => h
  | .create x :: ops, c, s, _ => by
      rw [exec_cons]
      exact exec_s_tail ops (x :: c) _ (by rw [apply, construct_s_tail]; rfl)
  | .destroy x :: ops, c, s, h => by
      rw [exec_cons]
      exact exec_s_tail ops c _ (by rw [apply, destruct_s_tail]; exact h)

/-! ## References respect the creation order -/

theorem before_trans {o : List Nat} {a b c : Nat} (h1 : Before o a b) (h2 : Before o b c) :
    Before o a c :=
  ⟨h1.1, h2.2.1, Nat.lt_trans h1.2.2 h2.2.2⟩

theorem before_snoc {o : List Nat} {a b : Nat} (x : Nat) (h : Before o a b) :
    Before (o ++ [x]) a b := by
  refine ⟨List.mem_append_left _ h.1, List.mem_append_left _ h.2.1, ?_⟩
  rw [List.indexOf_append_of_mem h.1, List.indexOf_append_of_mem h.2.1]
  exact h.2.2

theorem before_last {o : List Nat} {a x : Nat} (ha : a ∈ o) (hx : x ∉ o) :
    Before (o ++ [x]) a x := by
  refine ⟨List.mem_append_left _ ha, by simp, ?_⟩
  rw [List.indexOf_append_of_mem ha, List.indexOf_append_of_not_mem hx]
  have := List.indexOf_lt_length.2 ha
  omega

theorem ordered_empty : Ordered [] empty := by
  refine ⟨List.nodup_nil, rfl, ?_, ?_, ?_⟩
  · intro h0 hh
    simp [empty] at hh
  · intro y p hyp
    simp [empty] at hyp
  · intro y z hyz
    simp [empty] at hyz

theorem ordered_construct {o : List Nat} {s : Registry} {x : Nat}
    (h : Ordered o s) (hx : x ∉ o) : Ordered (o ++ [x]) (construct x s) := by
  obtain ⟨hnd, htail, hhead, hprev, hnext⟩ := h
  have htmem : ∀ t, s.s_tail = some t → t ∈ o := by
    intro t ht
    rw [htail] at ht
    exact List.mem_of_getLast?_eq_some ht
  refine ⟨?_, ?_, ?_, ?_, ?_⟩
  · rw [List.nodup_append]
    refine ⟨hnd, List.nodup_singleton x, ?_⟩
    intro a ha hb
    rw [List.mem_singleton] at hb
    subst hb
    exact hx ha
  · rw [construct_s_tail, List.getLast?_concat]
  · intro h0 hh
    rw [construct_s_head] at hh
    cases hs : s.s_head with
    | none =>
        rw [hs] at hh
        have : x = h0 := by simpa using hh
        rw [← this]
        simp
    | some h1 =>
        rw [hs] at hh
        have : h1 = h0 := by simpa using hh
        rw [← this]
        exact List.mem_append_left _ (hhead h1 hs)
  · intro y p hyp
    rw [construct_m_prev] at hyp
    by_cases hyx : y = x
    · subst hyx
      rw [store_same] at hyp
      exact before_last (htmem p hyp) hx
    · rw [store_other _ _ _ _ hyx, store_other _ _ _ _ hyx] at hyp
      exact before_snoc x (hprev y p hyp)
  · intro y z hyz
    rw [construct_m_next] at hyz
    cases ht : s.s_tail with
    | none =>
        rw [ht] at hyz
        dsimp only at hyz
        by_cases hyx : y = x
        · subst hyx
          rw [store_same] at hyz
          exact nomatch hyz
        · rw [store_other _ _ _ _ hyx] at hyz
          exact before_snoc x (hnext y z hyz)
    | some t =>
        rw [ht] at hyz
        dsimp only at hyz
        by_cases hyt : y = t
        · subst hyt
          rw [store_same] at hyz
          have hz : x = z := by simpa using hyz
          rw [← hz]
          exact before_last (htmem y ht) hx
        · rw [store_other _ _ _ _ hyt] at hyz
          by_cases hyx : y = x
          · subst hyx
            rw [store_same] at hyz
            exact nomatch hyz
          · rw [store_other _ _ _ _ hyx] at hyz
            exact before_snoc x (hnext y z hyz)

theorem ordered_destruct {o : List Nat} {s : Registry} (x : Nat)
    (h : Ordered o s) : Ordered o (destruct x s) := by
  obtain ⟨hnd, htail, hhead, hprev, hnext⟩ := h
  refine ⟨hnd, ?_, ?_, ?_, ?_⟩
  · rw [destruct_s_tail]
    exact htail
  · intro h0 hh
    rw [destruct_s_head] at hh
    cases hp : s.m_prev x with
    | none =>
        rw [hp] at hh
        exact (hnext x h0 hh).2.1
    | some p =>
        rw [hp] at hh
        exact hhead h0 hh
  · intro y p hyp
    rw [destruct_m_prev] at hyp
    by_cases hyx : y = x
    · subst hyx
      rw [store_same] at hyp
      exact nomatch hyp
    · rw [store_other _ _ _ _ hyx] at hyp
      exact hprev y p hyp
  · intro y z hyz
    rw [destruct_m_next] at hyz
    by_cases hyx : y = x
    · subst hyx
      cases hp : s.m_prev y with
      | none =>
          rw [hp] at hyz
          dsimp only at hyz
          rw [store_same] at hyz
          exact nomatch hyz
      | some p =>
          rw [hp] at hyz
          dsimp only at hyz
          rw [store_same] at hyz
          exact nomatch hyz
    · cases hp : s.m_prev x with
      | none =>
          rw [hp] at hyz
          dsimp only at hyz
          rw [store_other _ _ _ _ hyx] at hyz
          exact hnext y z hyz
      | some p =>
          rw [hp] at hyz
          dsimp only at hyz
          rw [store_other _ _ _ _ hyx] at hyz
          by_cases hyp : y = p
          · subst hyp
            rw [store_same] at hyz
            exact before_trans (hprev x y hp) (hnext x z hyz)
          · rw [store_other _ _ _ _ hyp] at hyz
            exact hnext y z hyz

theorem ordered_exec :
    ∀ (ops : List Op) (c l : List Nat) (s : Registry), wellFormedFrom c l ops = true →
      Ordered c.reverse s → Ordered (createdAfter c ops).reverse (exec s ops)
  | [], _, _, _, _, h => h
  | .create x :: ops, c, l, s, hwf, h => by
      simp only [wellFormedFrom, Bool.and_eq_true, Bool.not_eq_true'] at hwf
      have hx : x ∉ c.reverse := by simpa using hwf.1
      rw [exec_cons]
      refine ordered_exec ops (x :: c) (l ++ [x]) _ hwf.2 ?_
      rw [List.reverse_cons]
      exact ordered_construct h hx
  | .destroy x :: ops, c, l, s, hwf, h => by
      simp only [wellFormedFrom, Bool.and_eq_true] at hwf
      rw [exec_cons]
      exact ordered_exec ops c (l.erase x) _ hwf.2 (ordered_destruct x h)

theorem ordered_run (ops : List Op) (hwf : wellFormed ops = true) :
    Ordered (createdOrder ops) (run ops) :=
  ordered_exec ops [] [] empty hwf ordered_empty

theorem walk_mono (f : Nat → Option Nat) :
    ∀ (k k1 : Nat) (a : Option Nat) (r : List Nat), walk f k a = some r → k ≤ k1 →
      walk f k1 a = some r
  | k, k1, none, r, h, _ => by
      have hr : r = [] := by
        cases k <;> simpa [walk] using h.symm
      subst hr
      cases k1 <;> rfl
  | 0, _, some _, _, h, _ => nomatch h
  | k + 1, 0, some _, _, _, hk => by omega
  | k + 1, k1 + 1, some x, r, h, hk => by
      simp only [walk, Option.map_eq_some'] at h ⊢
      obtain ⟨r0, hr0, hr⟩ := h
      exact ⟨r0, walk_mono f k k1 (f x) r0 hr0 (by omega), hr⟩

theorem walk_ordered {o : List Nat} {s : Registry} (h : Ordered o s) :
    ∀ (k y : Nat), y ∈ o → o.length - o.indexOf y ≤ k →
      ∃ r, walk s.m_next k (some y) = some r ∧ r.length ≤ o.length - o.indexOf y
  | 0, y, hy, hk => by
      have := List.indexOf_lt_length.2 hy
      omega
  | k + 1, y, hy, hk => by
      have hylt := List.indexOf_lt_length.2 hy
      cases hn : s.m_next y with
      | none =>
          refine ⟨[y], ?_, ?_⟩
          · simp [walk, hn]
          · simp only [List.length_singleton]
            omega
      | some z =>
          obtain ⟨_, hz, hlt⟩ := h.2.2.2.2 y z hn
          have hzlt := List.indexOf_lt_length.2 hz
          obtain ⟨r, hr, hlen⟩ := walk_ordered h k z hz (by omega)
          refine ⟨y :: r, ?_, ?_⟩
          · simp [walk, hn, hr]
          · simp only [List.length_cons]
            omega

/-- Claim C14.  Objects constructed at distinct addresses with the payloads
`v1..vn`, from the empty registry: the loop over `linked_instance_range` prints
`v1..vn` in order while replacing every visited payload `v` by `f v`, leaves the
registry (the link structure) unchanged, and the following loop over the read-only
iterators `cbegin()`/`cend()` prints `f v1 .. f vn`; both loops return for every
fuel of at least the number of objects. -/
theorem simple_example_spec (f : Int → Int) (decls : List (Nat × Int)) (i0 : Nat → Int)
    (hnd : (decls.map Prod.fst).Nodup) (fuel : Nat) (hf : decls.length ≤ fuel) :
    simple_example_run f decls fuel { reg := empty, i := i0 } =
      .ok (decls.map Prod.snd, (decls.map Prod.snd).map f) ∧
    ∃ w1,
      printAndUpdate f (linked_instance_range (declare { reg := empty, i := i0 } decls).reg).end_
          fuel (linked_instance_range (declare { reg := empty, i := i0 } decls).reg).begin
          (declare { reg := empty, i := i0 } decls) = .ok (decls.map Prod.snd, w1) ∧
      w1.reg = (declare { reg := empty, i := i0 } decls).reg ∧
      printConst w1 (linked_instance_range w1.reg).cend fuel
          (linked_instance_range w1.reg).cbegin = .ok ((decls.map Prod.snd).map f) := by
  have hreg : (declare { reg := empty, i := i0 } decls).reg =
      run (creations (decls.map Prod.fst)) := declare_reg decls _
  have hc : Chain (declare { reg := empty, i := i0 } decls).reg (decls.map Prod.fst) := by
    rw [hreg]
    exact chain_creations _ hnd
  have hlen : (decls.map Prod.fst).length ≤ fuel := by simpa using hf
  obtain ⟨w1, hrun, hreg1, hin, _⟩ :=
    printAndUpdate_seg f (decls.map Prod.fst) _ fuel _ hc.2.1 hc.1 hlen
  rw [declare_i decls _ hnd] at hrun
  have hseg1 : Seg w1.reg.m_next w1.reg.s_head (decls.map Prod.fst) none := by
    rw [hreg1]
    exact hc.2.1
  have hconst := printConst_seg w1 (decls.map Prod.fst) _ fuel hseg1 hlen
  have hmap : (decls.map Prod.fst).map w1.i = (decls.map Prod.snd).map f := by
    have h1 : (decls.map Prod.fst).map w1.i =
        (decls.map Prod.fst).map (fun y => f ((declare { reg := empty, i := i0 } decls).i y)) :=
      List.map_congr_left (fun y hy => hin y hy)
    have h2 : (decls.map Prod.fst).map
          (fun y => f ((declare { reg := empty, i := i0 } decls).i y)) =
        ((decls.map Prod.fst).map (declare { reg := empty, i := i0 } decls).i).map f := by
      simp [List.map_map, Function.comp_def]
    rw [h1, h2, declare_i decls { reg := empty, i := i0 } hnd]
  rw [hmap] at hconst
  have hrun' : printAndUpdate f
      (linked_instance_range (declare { reg := empty, i := i0 } decls).reg).end_ fuel
      (linked_instance_range (declare { reg := empty, i := i0 } decls).reg).begin
      (declare { reg := empty, i := i0 } decls) = .ok (decls.map Prod.snd, w1) := hrun
  have hconst' : printConst w1 (linked_instance_range w1.reg).cend fuel
      (linked_instance_range w1.reg).cbegin = .ok ((decls.map Prod.snd).map f) := hconst
  refine ⟨?_, w1, hrun', hreg1, hconst'⟩
  unfold simple_example_run
  simp only [hrun', hconst']

theorem simple_example_spec_witness :
    (([(0, 0), (1, 1), (2, 2), (3, 3)] : List (Nat × Int)).map Prod.fst).Nodup ∧
    ([(0, 0), (1, 1), (2, 2), (3, 3)] : List (Nat × Int)).length ≤ 4 ∧
    simple_example_run (fun v => v * 2) [(0, 0), (1, 1), (2, 2), (3, 3)] 4
      { reg := empty, i := fun _ => 0 } = .ok ([0, 1, 2, 3], [0, 2, 4, 6]) :=
  ⟨by decide, by decide,
    (simple_example_spec (fun v => v * 2) [(0, 0), (1, 1), (2, 2), (3, 3)] (fun _ => 0)
      (by decide) 4 (by decide)).1⟩

/-- Claim C15 fails on the code for two read-only iterators.  Two mutable iterators
compare equal exactly when their positions are equal, and a read-only iterator
constructed or assigned from a mutable one has the same position and compares equal
to it.  But after create 0, create 1 the read-only iterators `cbegin()` (at 0) and
`cbegin()` advanced once (at 1) compare equal with `==` and not unequal with `!=`:
the comparison of two read-only iterators goes through `operator bool`. -/
theorem read_only_iterators_compare_by_validity :
    (∀ a b : LinkedInstanceIterator, a.operator_eq b = true ↔ a.m_curr = b.m_curr) ∧
    (∀ a b : LinkedInstanceIterator, a.operator_ne b = true ↔ a.m_curr ≠ b.m_curr) ∧
    (∀ it : LinkedInstanceIterator,
      (ConstLinkedInstanceIterator.ofIterator it).m_curr = it.m_curr ∧
      (ConstLinkedInstanceIterator.ofIterator it).operator_eq it = true ∧
      (ConstLinkedInstanceIterator.ofIterator it).operator_ne it = false) ∧
    (∀ (c : ConstLinkedInstanceIterator) (it : LinkedInstanceIterator),
      (c.assign it).m_curr = it.m_curr ∧
      (c.assign it).operator_eq it = true ∧
      (c.assign it).operator_ne it = false) ∧
    (linked_instance_range (run [.create 0, .create 1])).cbegin = { m_curr := some 0 } ∧
    (linked_instance_range (run [.create 0, .create 1])).cbegin.operator_inc
      (run [.create 0, .create 1]) = .ok { m_curr := some 1 } ∧
    ConstLinkedInstanceIterator.eq_const { m_curr := some 0 } { m_curr := some 1 } = true ∧
    ConstLinkedInstanceIterator.ne_const { m_curr := some 0 } { m_curr := some 1 } = false := by
  refine ⟨?_, ?_, ?_, ?_, by decide, rfl, by decide, by decide⟩
  · intro a b
    simp [LinkedInstanceIterator.operator_eq]
  · intro a b
    simp [LinkedInstanceIterator.operator_ne, LinkedInstanceIterator.operator_eq]
  · intro it
    simp [ConstLinkedInstanceIterator.ofIterator, ConstLinkedInstanceIterator.operator_eq,
      ConstLinkedInstanceIterator.operator_ne, ConstLinkedInstanceIterator.current,
      LinkedInstanceIterator.current]
  · intro c it
    simp [ConstLinkedInstanceIterator.assign, ConstLinkedInstanceIterator.operator_eq,
      ConstLinkedInstanceIterator.operator_ne, ConstLinkedInstanceIterator.current,
      LinkedInstanceIterator.current]

/-- Claim C16.  In the state after a well-formed sequence of events in which the
instance `x` was created and is still live, `linked_instance_prev` of `x` is the
value `linked_instance_tail` had immediately before `x` was created, which is the
instance created last before `x` (empty when `x` is the first instance created),
live or not.  The destructor never changes the tail, and the constructor and the
destructor of another instance never change the `m_prev` of `x`. -/
theorem prev_is_tail_at_creation (ops1 ops2 : List Op) (x : Nat)
    (hwf : wellFormed (ops1 ++ Op.create x :: ops2) = true)
    (hlive : x ∈ liveAfter [] (ops1 ++ Op.create x :: ops2)) :
    linked_instance_prev (run (ops1 ++ Op.create x :: ops2)) x =
      linked_instance_tail (run ops1) ∧
    linked_instance_tail (run ops1) = (createdAfter [] ops1).head? ∧
    (∀ (s : Registry) (y : Nat), linked_instance_tail (destruct y s) = linked_instance_tail s) ∧
    (∀ (s : Registry) (y : Nat), y ≠ x →
      (construct y s).m_prev x = s.m_prev x ∧ (destruct y s).m_prev x = s.m_prev x) := by
  refine ⟨?_, exec_s_tail ops1 [] empty rfl, fun s y => destruct_s_tail y s, ?_⟩
  · unfold wellFormed at hwf
    rw [wellFormedFrom_append, Bool.and_eq_true] at hwf
    obtain ⟨hwf1, hwf2⟩ := hwf
    have hinv1 := live_invariant ops1 [] [] hwf1 List.nodup_nil
      (fun y hy => absurd hy (List.not_mem_nil y))
    have hinv2 := live_invariant [.create x] _ _
      (by
        simp only [wellFormedFrom, Bool.and_eq_true, Bool.not_eq_true'] at hwf2 ⊢
        exact ⟨hwf2.1, trivial⟩) hinv1.1 hinv1.2
    simp only [wellFormedFrom, Bool.and_eq_true, Bool.not_eq_true'] at hwf2
    rw [liveAfter_append] at hlive
    have hkeep := exec_m_prev_of_live x ops2 (x :: createdAfter [] ops1)
      (liveAfter [] ops1 ++ [x]) (construct x (run ops1)) hwf2.2
      (List.mem_cons_self x _) hinv2.1 hinv2.2 hlive
    have hrun : run (ops1 ++ Op.create x :: ops2) = exec (construct x (run ops1)) ops2 := by
      unfold run
      rw [exec_append, exec_cons]
      rfl
    unfold linked_instance_prev linked_instance_tail
    rw [hrun, hkeep, construct_m_prev, store_same]
  · intro s y hyx
    have hxy : x ≠ y := fun e => hyx e.symm
    rw [construct_m_prev, destruct_m_prev, store_other _ _ _ _ hxy, store_other _ _ _ _ hxy]
    exact ⟨rfl, rfl⟩

theorem prev_is_tail_at_creation_witness :
    wellFormed ([.create 0, .create 1] ++ Op.create 2 :: [.destroy 1]) = true ∧
    2 ∈ liveAfter [] ([.create 0, .create 1] ++ Op.create 2 :: [.destroy 1]) ∧
    linked_instance_prev (run ([.create 0, .create 1] ++ Op.create 2 :: [.destroy 1])) 2 =
      some 1 ∧
    linked_instance_tail (run [.create 0, .create 1]) = some 1 :=
  have h := prev_is_tail_at_creation [.create 0, .create 1] [.destroy 1] 2 (by decide)
    (by decide)
  ⟨by decide, by decide, h.1.trans (by decide), h.2.1⟩

/-- Claim C17.  In the state after a well-formed sequence of events, every non-empty
`linked_instance_next` refers to an instance created strictly later than its holder;
and following `linked_instance_next` from any created instance, from
`linked_instance_head`, or with the range loop reaches the end sentinel: the
traversal returns for every fuel of at least the number of instances ever created
and visits at most that many instances. -/
theorem next_refers_to_later_instance (ops : List Op) (hwf : wellFormed ops = true) :
    (∀ y z, linked_instance_next (run ops) y = some z → Before (createdOrder ops) y z) ∧
    (∀ y z, linked_instance_next (run ops) y = some z → y ≠ z) ∧
    (∀ y fuel, y ∈ createdOrder ops → (createdOrder ops).length ≤ fuel →
      ∃ r, walk (linked_instance_next (run ops)) fuel (some y) = some r ∧
        r.length ≤ (createdOrder ops).length) ∧
    (∀ fuel, (createdOrder ops).length ≤ fuel →
      ∃ r, forward (run ops) fuel = some r ∧ r.length ≤ (createdOrder ops).length) ∧
    (∀ fuel, (createdOrder ops).length ≤ fuel →
      ∃ r, rangeFor (run ops) fuel = .ok r ∧ r.length ≤ (createdOrder ops).length) := by
  have hord := ordered_run ops hwf
  have hwalk : ∀ y fuel, y ∈ createdOrder ops → (createdOrder ops).length ≤ fuel →
      ∃ r, walk (linked_instance_next (run ops)) fuel (some y) = some r ∧
        r.length ≤ (createdOrder ops).length := by
    intro y fuel hy hf
    obtain ⟨r, hr, hlen⟩ := walk_ordered hord (createdOrder ops).length y hy (by omega)
    exact ⟨r, walk_mono _ _ fuel _ r hr hf, by omega⟩
  have hfwd : ∀ fuel, (createdOrder ops).length ≤ fuel →
      ∃ r, forward (run ops) fuel = some r ∧ r.length ≤ (createdOrder ops).length := by
    intro fuel hf
    unfold forward linked_instance_head
    cases hh : (run ops).s_head with
    | none =>
        refine ⟨[], ?_, Nat.zero_le _⟩
        cases fuel <;> rfl
    | some h0 => exact hwalk h0 fuel (hord.2.2.1 h0 hh) hf
  refine ⟨hord.2.2.2.2, ?_, hwalk, hfwd, ?_⟩
  · intro y z hyz e
    have hb := hord.2.2.2.2 y z hyz
    rw [e] at hb
    exact Nat.lt_irrefl _ hb.2.2
  · intro fuel hf
    obtain ⟨r, hr, hlen⟩ := hfwd fuel hf
    refine ⟨r, ?_, hlen⟩
    rw [rangeFor_eq_forward, hr]

theorem next_refers_to_later_instance_witness :
    wellFormed [.create 0, .create 1, .create 2, .destroy 1, .destroy 2] = true ∧
    ∃ r, forward (run [.create 0, .create 1, .create 2, .destroy 1, .destroy 2]) 3 = some r ∧
      r.length ≤ 3 :=
  ⟨by decide,
    (next_refers_to_later_instance [.create 0, .create 1, .create 2, .destroy 1, .destroy 2]
      (by decide)).2.2.2.1 3 (by decide)⟩

end LinkedInstance
